import Mathlib

/-! PV_DecorTransExtract: transient extraction on magnitude spectra.

A shallow embedding of `src/PV_DecorTransExtract.cpp`.

Conventions of the embedding.

* `float` values are rationals: rounding is not modelled, every arithmetic
  operation is exact.  A value that is not a finite number (the NaN or
  infinity a division by zero produces) is `none` in the output buffer.
* `unsigned int` fields are naturals; where the source relies on wrap-around
  (the marking loop's `diffBins`, `iVal - 1`) the reduction modulo `2^32` is
  explicit.
* Arrays are lists.  The write `transFlagBins[j]` of the marking loop with
  `j` outside the array is undefined behaviour and makes the call return
  `none`.  Every other access of the source is within bounds as soon as
  `iVal >= 1` and `jVal >= 1`; they are read with a default and written with
  `List.set`.
* `PV_GET_BUF` and `ToPolarApx` belong to the host: a call receives the
  magnitudes of the frame as a list, whose length is `numbins`.
* `printf` diagnostics are not modelled.
-/

namespace PVDecor

/-! ## Constants and machine arithmetic -/

/-- The constant `#define MIN_VAL 0.000000001`. -/
def MIN_VAL : ℚ := 1 / 1000000000

/-- The constant `#define MAX_VAL 9.999999999`. -/
def MAX_VAL : ℚ := 9999999999 / 1000000000

/-- Conversion of a signed integer to `unsigned int` (32 bits). -/
def u32 (z : Int) : Nat := (z % 4294967296).toNat

/-- Conversion of an `int` to `unsigned char`, as `memset` does with its
value argument. -/
def u8 (z : Int) : Nat := (z % 256).toNat

/-- The finite IEEE-754 single-precision value with bit pattern `w`
(exponent field 255, infinities and NaN, is not decoded). -/
def float32OfBits (w : Nat) : ℚ :=
  let s := w / 2147483648 % 2
  let e := w / 8388608 % 256
  let m := w % 8388608
  let v : ℚ := if e = 0 then (m : ℚ) / 2 ^ 149 else ((8388608 + m : Nat) : ℚ) * 2 ^ e / 2 ^ 150
  if s = 1 then -v else v

/-- The call `memset(ptr, c, n * sizeof(float))` seen as an array of `n` floats: every
byte of every float is `(unsigned char)c`. -/
def memsetFloat (c : Int) (n : Nat) : List ℚ :=
  List.replicate n (float32OfBits (16843009 * u8 c))

/-- The call `memset(ptr, c, n * sizeof(bool))` seen as an array of `n` bools. -/
def memsetBool (c : Int) (n : Nat) : List Bool :=
  List.replicate n (u8 c != 0)

/-- The function `static float min(float a, float b)`. -/
def min (a b : ℚ) : ℚ := if a < b then a else b

/-- The function `static float max(float a, float b)`. -/
def max (a b : ℚ) : ℚ := if a > b then a else b

/-! ## Data model -/

/-- The engine, `struct PV_DecorTransExtract` (the `Unit` base is the host's). -/
structure PV_DecorTransExtract where
  retTrans : Bool
  alphaVal : ℚ
  betaVal : ℚ
  iVal : Nat
  jVal : Nat
  dVal : Nat
  lowFreqCutVal : Nat
  prevBinsIdx : Nat
  littleOmegaIdx : Nat
  bigOmegaIdx : Nat
  numFreqBins : Nat
  initFirstCalc : Bool
  initDebugFlag : Bool
  transFlagBins : List Bool
  releaseBins : List ℚ
  prevBins : List (List ℚ)
  littleOmegaBins : List (List ℚ)
  bigOmegaBins : List ℚ
deriving DecidableEq, Repr

/-- A magnitude of the frame buffer while it is rewritten in place: `none` is
a value that is not a finite number. -/
abbrev Mag := Option ℚ

/-- Read `a[i][k]` of a two-dimensional float array. -/
def get2 (a : List (List ℚ)) (i k : Nat) : ℚ := (a.getD i []).getD k 0

/-- Write `a[i][k] = v` of a two-dimensional float array. -/
def set2 (a : List (List ℚ)) (i k : Nat) (v : ℚ) : List (List ℚ) :=
  a.set i ((a.getD i []).set k v)

/-- The loop `for (int i = lo; i < hi; ++i) body`. -/
def forLoop {σ : Type} (lo hi : Nat) (body : Nat → σ → σ) (s : σ) : σ :=
  (List.range' lo (hi - lo)).foldl (fun s i => body i s) s

/-- The loop `for (int i = lo; i < hi; ++i) body`, for a body that may run into
undefined behaviour. -/
def forLoopM {σ : Type} (lo hi : Nat) (body : Nat → σ → Option σ) (s : σ) : Option σ :=
  (List.range' lo (hi - lo)).foldlM (fun s i => body i s) s

/-! ## Operations -/

/-- The constructor `PV_DecorTransExtract_Ctor`: the seven inputs are read in the order of the
source (`IN0(1)` .. `IN0(7)`); the arrays are not allocated yet. -/
def PV_DecorTransExtract_Ctor (retTrans : Bool) (iVal jVal : Nat) (alphaVal betaVal : ℚ)
    (dVal lowFreqCutVal : Nat) : PV_DecorTransExtract :=
  { retTrans := retTrans, iVal := iVal, jVal := jVal, alphaVal := alphaVal,
    betaVal := betaVal, dVal := dVal, lowFreqCutVal := lowFreqCutVal,
    numFreqBins := 0, prevBinsIdx := 0, littleOmegaIdx := 0, bigOmegaIdx := 0,
    initDebugFlag := true, initFirstCalc := true,
    transFlagBins := [], releaseBins := [], prevBins := [], littleOmegaBins := [],
    bigOmegaBins := [] }

/-- The function `firstCalc`: allocation and the `memset` calls.  `transFlagBins` is
allocated and not initialised here (it is reset at every frame); the second
argument `1.0` of the last `memset` is converted to the `int` 1 by the
prototype of `memset`. -/
def firstCalc (unit : PV_DecorTransExtract) : PV_DecorTransExtract :=
  { unit with
    prevBins := List.replicate unit.iVal (memsetFloat 0 unit.numFreqBins)
    littleOmegaBins := List.replicate unit.jVal (memsetFloat 0 unit.numFreqBins)
    bigOmegaBins := memsetFloat 0 unit.numFreqBins
    transFlagBins := List.replicate unit.numFreqBins false
    releaseBins := memsetFloat 1 unit.numFreqBins
    initDebugFlag := false }

/-- The function `calcAverageBins`: the mean of the `iVal` history slots of bin `k`. -/
def calcAverageBins (unit : PV_DecorTransExtract) (k : Nat) : ℚ :=
  let tempSum := forLoop 0 unit.iVal (fun i tempSum => tempSum + get2 unit.prevBins i k) (0 : ℚ)
  tempSum / (unit.iVal : ℚ)

/-- The function `calcMinBin`: the search starts from `MAX_VAL` and skips the
slot at `littleOmegaIdx`. -/
def calcMinBin (unit : PV_DecorTransExtract) (k : Nat) : ℚ :=
  let currBin := unit.littleOmegaIdx
  forLoop 0 unit.jVal
    (fun j minBin =>
      if j ≠ currBin ∧ get2 unit.littleOmegaBins j k < minBin then
        get2 unit.littleOmegaBins j k
      else minBin)
    MAX_VAL

/-- The function `calcReleaseBin`.  `prevS` is an `int` copy of the unsigned
`littleOmegaIdx`, so the test `prevS < 0` is on a non-negative value. -/
def calcReleaseBin (unit : PV_DecorTransExtract) (k : Nat) : ℚ :=
  let weightedRelease := unit.betaVal * unit.releaseBins.getD k 0
  let prevS : Int := (unit.littleOmegaIdx : Int)
  let prevS : Int := if prevS < 0 then (unit.jVal : Int) - 1 else prevS
  if unit.transFlagBins.getD k false then
    min weightedRelease (get2 unit.littleOmegaBins prevS.toNat k)
  else max weightedRelease MIN_VAL

/-- The inner marking loop
`for (int j = i - 1; j >= diffBins; --j) transFlagBins[j] = true;`
with the loop variable given as `n = j + 1`.  The comparison converts `j` to
`unsigned int`; a write outside the array is undefined behaviour. -/
def markDown (diffBins : Nat) : Nat → List Bool → Option (List Bool)
  | 0, flags => if diffBins ≤ u32 (-1) then none else some flags
  | n + 1, flags =>
    if diffBins ≤ u32 (n : Int) then
      if n < flags.length then markDown diffBins n (flags.set n true) else none
    else some flags

/-- One iteration of the marking loop of `PV_DecorTransExtract_next`, on the
engine and the local `numTransBins`. -/
def markStep (mag : List ℚ) (i : Nat) (st : PV_DecorTransExtract × Nat) :
    Option (PV_DecorTransExtract × Nat) :=
  let unit := { st.1 with bigOmegaBins := st.1.bigOmegaBins.set i (calcMinBin st.1 i) }
  let numTransBins := st.2
  if mag.getD i 0 > unit.alphaVal * unit.bigOmegaBins.getD i 0 then
    some (unit, (numTransBins + 1) % 4294967296)
  else if numTransBins ≥ unit.dVal then
    let diffBins := u32 (((i : Int) - 1) - (numTransBins : Int))
    (markDown diffBins i unit.transFlagBins).map
      (fun flags => ({ unit with transFlagBins := flags }, 0))
  else some (unit, 0)

/-- The local `gain` of the last loop for a bin of magnitude `m` and updated
release value `rel`: `kVal / m`, or one minus it; `none` when the quotient is
not a finite number. -/
def binGain (retTrans : Bool) (rel m : ℚ) : Mag :=
  let kVal := min rel m
  let outputVal : Mag := if m = 0 then none else some (kVal / m)
  if retTrans then outputVal.map (fun o => 1 - o) else outputVal

/-- One iteration of the last loop of `PV_DecorTransExtract_next`, on the
engine and the frame buffer. -/
def gainStep (i : Nat) (st : PV_DecorTransExtract × List Mag) :
    PV_DecorTransExtract × List Mag :=
  let unit := { st.1 with releaseBins := st.1.releaseBins.set i (calcReleaseBin st.1 i) }
  match st.2.getD i none with
  | some m =>
    let gain := binGain unit.retTrans (unit.releaseBins.getD i 0) m
    (unit, st.2.set i (gain.map (fun g => g * m)))
  | none => (unit, st.2.set i none)

/-- The block `if (unit->initFirstCalc) ...` of `PV_DecorTransExtract_next`. -/
def prime (unit : PV_DecorTransExtract) (numbins : Nat) : PV_DecorTransExtract :=
  if unit.initFirstCalc then
    { firstCalc { unit with numFreqBins := numbins } with initFirstCalc := false }
  else unit

/-- The loop under `// store bin values`. -/
def storeBins (frame : List ℚ) (unit : PV_DecorTransExtract) : PV_DecorTransExtract :=
  forLoop unit.lowFreqCutVal frame.length
    (fun i u => { u with prevBins := set2 u.prevBins u.prevBinsIdx i (frame.getD i 0) }) unit

/-- The loop under `// calculate average freq history for each bin`. -/
def averageBins (numbins : Nat) (unit : PV_DecorTransExtract) : PV_DecorTransExtract :=
  forLoop unit.lowFreqCutVal numbins
    (fun j u => { u with
      littleOmegaBins := set2 u.littleOmegaBins u.littleOmegaIdx j (calcAverageBins u j) }) unit

/-- The `memset` under `// reset transient flag`. -/
def resetFlags (unit : PV_DecorTransExtract) : PV_DecorTransExtract :=
  { unit with transFlagBins := memsetBool 0 unit.numFreqBins }

/-- The marking loop, started with `numTransBins = 0`. -/
def markTransients (frame : List ℚ) (unit : PV_DecorTransExtract) :
    Option (PV_DecorTransExtract × Nat) :=
  forLoopM unit.lowFreqCutVal frame.length (markStep frame) (unit, 0)

/-- The loop under `// this is where the lower freq bins are cut out`. -/
def cutLowBins (unit : PV_DecorTransExtract) (p : List Mag) : List Mag :=
  if unit.retTrans then forLoop 0 unit.lowFreqCutVal (fun i p => p.set i (some 0)) p else p

/-- The last loop: release update and gain, for the bins from the cutoff on. -/
def shapeBins (numbins : Nat) (unit : PV_DecorTransExtract) (p : List Mag) :
    PV_DecorTransExtract × List Mag :=
  forLoop unit.lowFreqCutVal numbins gainStep (unit, p)

/-- The statements under `// increment circular queue of bins`; `iVal - 1` and
`jVal - 1` are unsigned. -/
def advance (unit : PV_DecorTransExtract) : PV_DecorTransExtract :=
  let unit := if unit.prevBinsIdx < u32 ((unit.iVal : Int) - 1) then
      { unit with prevBinsIdx := unit.prevBinsIdx + 1 }
    else { unit with prevBinsIdx := 0 }
  if unit.littleOmegaIdx < u32 ((unit.jVal : Int) - 1) then
    { unit with littleOmegaIdx := unit.littleOmegaIdx + 1 }
  else { unit with littleOmegaIdx := 0 }

/-- The part of `PV_DecorTransExtract_next` after the two checks: storing,
averaging, marking, shaping and the advance of the two ring indices, in the
order of the source. -/
def process (unit : PV_DecorTransExtract) (frame : List ℚ) :
    Option (PV_DecorTransExtract × List Mag) :=
  let unit := resetFlags (averageBins frame.length (storeBins frame unit))
  (markTransients frame unit).map fun marked =>
    let st := shapeBins frame.length marked.1 (cutLowBins marked.1 (frame.map some))
    (advance st.1, st.2)

/-- The function `PV_DecorTransExtract_next` on a frame of magnitudes: the engine after
the call and the frame buffer after the call, or `none` when the call runs
into undefined behaviour. -/
def PV_DecorTransExtract_next (unit : PV_DecorTransExtract) (frame : List ℚ) :
    Option (PV_DecorTransExtract × List Mag) :=
  let numbins := frame.length
  let unit := prime unit numbins
  if unit.numFreqBins ≠ numbins then some (unit, frame.map some)
  else if unit.lowFreqCutVal > unit.numFreqBins then
    some ({ unit with lowFreqCutVal := 0 }, frame.map some)
  else process unit frame

/-- A frame the call processes: its size is the captured bin count (on the
first call the size is captured from the frame itself) and the cutoff bin
does not exceed it. -/
def Accepted (unit : PV_DecorTransExtract) (frame : List ℚ) : Prop :=
  (prime unit frame.length).numFreqBins = frame.length ∧
    (prime unit frame.length).lowFreqCutVal ≤ frame.length

instance (unit : PV_DecorTransExtract) (frame : List ℚ) : Decidable (Accepted unit frame) := by
  unfold Accepted
  exact inferInstance

/-! ## Engines of the worked examples -/

/-- The engine of the warm-up scenario (two history slots, two average slots,
run length 1, alpha 1, beta 1/2, cutoff 0), in residual mode. -/
def warmup : PV_DecorTransExtract := PV_DecorTransExtract_Ctor false 2 2 1 (1/2) 1 0

/-- The engine `warmup` after its first frame `[1,1,1,1]`. -/
def afterWarmup : PV_DecorTransExtract :=
  { retTrans := false, alphaVal := 1, betaVal := 1 / 2, iVal := 2, jVal := 2, dVal := 1,
    lowFreqCutVal := 0, prevBinsIdx := 1, littleOmegaIdx := 1, bigOmegaIdx := 0,
    numFreqBins := 4, initFirstCalc := false, initDebugFlag := false,
    transFlagBins := [false, false, false, false],
    releaseBins := [1 / 1000000000, 1 / 1000000000, 1 / 1000000000, 1 / 1000000000],
    prevBins := [[1, 1, 1, 1], [0, 0, 0, 0]],
    littleOmegaBins := [[1 / 2, 1 / 2, 1 / 2, 1 / 2], [0, 0, 0, 0]],
    bigOmegaBins := [0, 0, 0, 0] }

/-- The warm-up engine in extract mode with cutoff bin 2. -/
def cutTwo : PV_DecorTransExtract := PV_DecorTransExtract_Ctor true 2 2 1 (1/2) 1 2

/-- The engine `cutTwo` after its first frame `[1,1,1,1]`. -/
def afterCutTwo : PV_DecorTransExtract :=
  { retTrans := true, alphaVal := 1, betaVal := 1 / 2, iVal := 2, jVal := 2, dVal := 1,
    lowFreqCutVal := 2, prevBinsIdx := 1, littleOmegaIdx := 1, bigOmegaIdx := 0,
    numFreqBins := 4, initFirstCalc := false, initDebugFlag := false,
    transFlagBins := [false, false, false, false],
    releaseBins := [8454401 / 2 ^ 148, 8454401 / 2 ^ 148, 1 / 1000000000, 1 / 1000000000],
    prevBins := [[0, 0, 1, 1], [0, 0, 0, 0]],
    littleOmegaBins := [[0, 0, 1 / 2, 1 / 2], [0, 0, 0, 0]],
    bigOmegaBins := [0, 0, 0, 0] }

/-- An engine with one history slot and two average slots (run length 1,
alpha 1, beta 1/2, cutoff 0, residual mode). -/
def oneSlot : PV_DecorTransExtract := PV_DecorTransExtract_Ctor false 1 2 1 (1/2) 1 0


/-! ## Reachable engines, sequences of frames and the threshold test -/

/-- The engines a host can hold when every frame it passes satisfies `ok`: the
engine the constructor returns, and the engine left by a call that returned. -/
inductive ReachableBy (ok : List ℚ → Prop) : PV_DecorTransExtract → Prop
  | ctor (retTrans : Bool) (iVal jVal : Nat) (alphaVal betaVal : ℚ) (dVal lowFreqCutVal : Nat) :
      ReachableBy ok
        (PV_DecorTransExtract_Ctor retTrans iVal jVal alphaVal betaVal dVal lowFreqCutVal)
  | call (s s' : PV_DecorTransExtract) (frame : List ℚ) (out : List Mag) :
      ReachableBy ok s → ok frame → PV_DecorTransExtract_next s frame = some (s', out) →
      ReachableBy ok s'

/-- The engines reachable from the constructor by any sequence of calls. -/
def Reachable (s : PV_DecorTransExtract) : Prop := ReachableBy (fun _ => True) s

/-- The calls of `PV_DecorTransExtract_next` on a sequence of frames, one after
the other; `none` when one of them runs into undefined behaviour. -/
def runFrames (s : PV_DecorTransExtract) : List (List ℚ) → Option PV_DecorTransExtract
  | [] => some s
  | frame :: rest => (PV_DecorTransExtract_next s frame).bind (fun r => runFrames r.1 rest)

/-- The arrays have the sizes `firstCalc` gives them: `numFreqBins` entries per
bin array, `iVal` and `jVal` rows in the two histories. -/
def Shaped (s : PV_DecorTransExtract) : Prop :=
  s.transFlagBins.length = s.numFreqBins ∧ s.releaseBins.length = s.numFreqBins ∧
    s.bigOmegaBins.length = s.numFreqBins ∧
    s.prevBins.length = s.iVal ∧ (∀ row ∈ s.prevBins, row.length = s.numFreqBins) ∧
    s.littleOmegaBins.length = s.jVal ∧ (∀ row ∈ s.littleOmegaBins, row.length = s.numFreqBins)

/-- The engine as the marking loop of a call on `frame` finds it: primed, the
frame stored and averaged, the flags reset. -/
def entering (s : PV_DecorTransExtract) (frame : List ℚ) : PV_DecorTransExtract :=
  resetFlags (averageBins frame.length (storeBins frame (prime s frame.length)))

/-- The test of the marking loop for bin `k` of `frame`:
`magnitude[k] > alphaVal * baseline(k)`, the baseline being `calcMinBin`. -/
def aboveThreshold (s : PV_DecorTransExtract) (frame : List ℚ) (k : Nat) : Prop :=
  frame.getD k 0 > (entering s frame).alphaVal * calcMinBin (entering s frame) k

instance (s : PV_DecorTransExtract) (frame : List ℚ) (k : Nat) :
    Decidable (aboveThreshold s frame k) := by
  unfold aboveThreshold
  exact inferInstance

/-- What the marking loop keeps of the engine `u0` it starts from: the fields
its test reads, and the sizes of the two arrays it writes. -/
def MarkInv (u0 : PV_DecorTransExtract) (N : Nat) (u : PV_DecorTransExtract) : Prop :=
  u.alphaVal = u0.alphaVal ∧ u.dVal = u0.dVal ∧ u.littleOmegaIdx = u0.littleOmegaIdx ∧
    u.jVal = u0.jVal ∧ u.littleOmegaBins = u0.littleOmegaBins ∧
    u.bigOmegaBins.length = N ∧ u.transFlagBins.length = N

/-- The warm-up engine with run length 0 and cutoff bin 2 (residual mode). -/
def zeroRun : PV_DecorTransExtract := PV_DecorTransExtract_Ctor false 2 2 1 (1/2) 0 2

/-- The engine `zeroRun` after its first frame `[1,1,1,0]`. -/
def afterZeroRun : PV_DecorTransExtract :=
  { retTrans := false, alphaVal := 1, betaVal := 1 / 2, iVal := 2, jVal := 2, dVal := 0,
    lowFreqCutVal := 2, prevBinsIdx := 1, littleOmegaIdx := 1, bigOmegaIdx := 0,
    numFreqBins := 4, initFirstCalc := false, initDebugFlag := false,
    transFlagBins := [false, true, true, false],
    releaseBins := [8454401 / 2 ^ 148, 8454401 / 2 ^ 148, 8454401 / 2 ^ 149, 1 / 1000000000],
    prevBins := [[0, 0, 1, 0], [0, 0, 0, 0]],
    littleOmegaBins := [[0, 0, 1 / 2, 0], [0, 0, 0, 0]],
    bigOmegaBins := [0, 0, 0, 0] }

/-- The engine `warmup` after its first two frames `[1,1,1,1]`, `[1,1,1,1]`. -/
def afterSecond : PV_DecorTransExtract :=
  { retTrans := false, alphaVal := 1, betaVal := 1 / 2, iVal := 2, jVal := 2, dVal := 1,
    lowFreqCutVal := 0, prevBinsIdx := 0, littleOmegaIdx := 0, bigOmegaIdx := 0,
    numFreqBins := 4, initFirstCalc := false, initDebugFlag := false,
    transFlagBins := [false, false, false, false],
    releaseBins := [1 / 1000000000, 1 / 1000000000, 1 / 1000000000, 1 / 1000000000],
    prevBins := [[1, 1, 1, 1], [1, 1, 1, 1]],
    littleOmegaBins := [[1 / 2, 1 / 2, 1 / 2, 1 / 2], [1, 1, 1, 1]],
    bigOmegaBins := [1 / 2, 1 / 2, 1 / 2, 1 / 2] }

/-- The engine with its mode input `retTrans` set to `b`, everything else
equal. -/
def withMode (b : Bool) (u : PV_DecorTransExtract) : PV_DecorTransExtract :=
  { u with retTrans := b }

/-- The persistent float arrays of the engine hold no negative value. -/
def NonNeg (s : PV_DecorTransExtract) : Prop :=
  (∀ x ∈ s.releaseBins, 0 ≤ x) ∧ (∀ row ∈ s.littleOmegaBins, ∀ x ∈ row, 0 ≤ x) ∧
    (∀ row ∈ s.prevBins, ∀ x ∈ row, 0 ≤ x)

/-- The contents of the two histories after `t` processed frames `hist 0`, ...,
`hist (t - 1)` of `N` bins, for `I` history slots, `J` average slots and
cutoff `cut`: below the cutoff everything is 0; from the cutoff on, slot
`j mod I` of the short-term history holds frame `j` for the last `min t I`
frames, the slots not written yet hold 0, and slot `(t - 1) mod J` of the
average history holds the mean of the `I` short-term slots. -/
def HistoryInv (I J cut N : Nat) (hist : Nat → List ℚ) (t : Nat)
    (s : PV_DecorTransExtract) : Prop :=
  s.initFirstCalc = false ∧ s.iVal = I ∧ s.jVal = J ∧ s.lowFreqCutVal = cut ∧
    s.numFreqBins = N ∧ Shaped s ∧ s.prevBinsIdx = t % I ∧ s.littleOmegaIdx = t % J ∧
    (∀ i k, k < cut → get2 s.prevBins i k = 0 ∧ get2 s.littleOmegaBins i k = 0) ∧
    (∀ k, cut ≤ k → k < N →
      (∀ j, j < t → t ≤ j + I → get2 s.prevBins (j % I) k = (hist j).getD k 0) ∧
      (∀ i, t ≤ i → i < I → get2 s.prevBins i k = 0)) ∧
    (∀ k, cut ≤ k → k < N → 1 ≤ t →
      get2 s.littleOmegaBins ((t - 1) % J) k =
        ((List.range I).map (fun i => get2 s.prevBins i k)).sum / (I : ℚ))

/-! ## Lemmas on the loops -/

theorem forLoop_inv {σ : Type} (P : σ → Prop) (lo hi : Nat) (body : Nat → σ → σ) (s : σ)
    (h0 : P s) (hstep : ∀ i t, P t → P (body i t)) : P (forLoop lo hi body s) := by
  unfold forLoop
  generalize List.range' lo (hi - lo) = l
  induction l generalizing s with
  | nil => simpa using h0
  | cons a l ih => simpa using ih (body a s) (hstep a s h0)

theorem forLoop_field {σ α : Type} (f : σ → α) (lo hi : Nat) (body : Nat → σ → σ) (s : σ)
    (hstep : ∀ i t, f (body i t) = f t) : f (forLoop lo hi body s) = f s :=
  forLoop_inv (fun t => f t = f s) lo hi body s rfl (fun i t ht => (hstep i t).trans ht)

theorem foldlM_inv {σ : Type} (P : σ → Prop) (body : Nat → σ → Option σ)
    (hstep : ∀ i t t', body i t = some t' → P t → P t') :
    ∀ (l : List Nat) (s s' : σ), l.foldlM (fun s i => body i s) s = some s' → P s → P s' := by
  intro l
  induction l with
  | nil => intro s s' h h0; simp at h; subst h; exact h0
  | cons a l ih =>
    intro s s' h h0
    simp only [List.foldlM_cons] at h
    cases hb : body a s with
    | none => simp [hb] at h
    | some t =>
      rw [hb] at h
      exact ih t s' h (hstep a s t hb h0)

theorem forLoopM_inv {σ : Type} (P : σ → Prop) (lo hi : Nat) (body : Nat → σ → Option σ)
    (s s' : σ) (h : forLoopM lo hi body s = some s') (h0 : P s)
    (hstep : ∀ i t t', body i t = some t' → P t → P t') : P s' :=
  foldlM_inv P body hstep _ s s' h h0


/-! ## What each phase of a call leaves unchanged -/

theorem storeBins_eq (frame : List ℚ) (u : PV_DecorTransExtract) :
    ∃ pb, storeBins frame u = { u with prevBins := pb } := by
  unfold storeBins
  refine forLoop_inv (fun t => ∃ pb, t = { u with prevBins := pb }) _ _ _ u ⟨u.prevBins, rfl⟩ ?_
  rintro i t ⟨pb, rfl⟩
  exact ⟨_, rfl⟩

theorem averageBins_eq (numbins : Nat) (u : PV_DecorTransExtract) :
    ∃ lo, averageBins numbins u = { u with littleOmegaBins := lo } := by
  unfold averageBins
  refine forLoop_inv (fun t => ∃ lo, t = { u with littleOmegaBins := lo }) _ _ _ u
    ⟨u.littleOmegaBins, rfl⟩ ?_
  rintro i t ⟨lo, rfl⟩
  exact ⟨_, rfl⟩

theorem markStep_eq (mag : List ℚ) (i : Nat) (st st' : PV_DecorTransExtract × Nat)
    (h : markStep mag i st = some st') :
    ∃ bo fl, st'.1 = { st.1 with bigOmegaBins := bo, transFlagBins := fl } := by
  unfold markStep at h
  simp only [] at h
  split at h
  · cases h; exact ⟨_, st.1.transFlagBins, rfl⟩
  · split at h
    · simp only [Option.map_eq_some'] at h
      obtain ⟨fl, -, rfl⟩ := h
      exact ⟨_, fl, rfl⟩
    · cases h; exact ⟨_, st.1.transFlagBins, rfl⟩

theorem markTransients_eq (frame : List ℚ) (u : PV_DecorTransExtract)
    (m : PV_DecorTransExtract × Nat) (h : markTransients frame u = some m) :
    ∃ bo fl, m.1 = { u with bigOmegaBins := bo, transFlagBins := fl } := by
  unfold markTransients at h
  refine forLoopM_inv (fun t => ∃ bo fl, t.1 = { u with bigOmegaBins := bo, transFlagBins := fl })
    _ _ _ _ m h ⟨u.bigOmegaBins, u.transFlagBins, rfl⟩ ?_
  rintro i t t' ht ⟨bo, fl, hu⟩
  obtain ⟨bo', fl', ht'⟩ := markStep_eq frame i t t' ht
  rw [ht', hu]
  exact ⟨bo', fl', rfl⟩

theorem gainStep_fst (i : Nat) (st : PV_DecorTransExtract × List Mag) :
    (gainStep i st).1 =
      { st.1 with releaseBins := st.1.releaseBins.set i (calcReleaseBin st.1 i) } := by
  unfold gainStep
  split <;> rfl

theorem shapeBins_eq (numbins : Nat) (u : PV_DecorTransExtract) (p : List Mag) :
    ∃ rb, (shapeBins numbins u p).1 = { u with releaseBins := rb } := by
  unfold shapeBins
  refine forLoop_inv (fun t => ∃ rb, t.1 = { u with releaseBins := rb }) _ _ _ (u, p)
    ⟨u.releaseBins, rfl⟩ ?_
  rintro i t ⟨rb, ht⟩
  rw [gainStep_fst, ht]
  exact ⟨_, rfl⟩

theorem advance_eq (u : PV_DecorTransExtract) :
    ∃ a b, advance u = { u with prevBinsIdx := a, littleOmegaIdx := b } := by
  unfold advance
  simp only []
  split <;> split <;> exact ⟨_, _, rfl⟩


/-! ## The last loop, bin by bin -/

theorem calcReleaseBin_congr (u v : PV_DecorTransExtract) (k : Nat)
    (h1 : u.betaVal = v.betaVal) (h2 : u.releaseBins.getD k 0 = v.releaseBins.getD k 0)
    (h3 : u.littleOmegaIdx = v.littleOmegaIdx) (h4 : u.jVal = v.jVal)
    (h5 : u.transFlagBins = v.transFlagBins) (h6 : u.littleOmegaBins = v.littleOmegaBins) :
    calcReleaseBin u k = calcReleaseBin v k := by
  unfold calcReleaseBin
  rw [h1, h2, h3, h4, h5, h6]

theorem gainFold_release (n : Nat) :
    ∀ (lo : Nat) (st : PV_DecorTransExtract × List Mag) (k : Nat),
      (((List.range' lo n).foldl (fun s i => gainStep i s) st).1.releaseBins).getD k 0 =
        if lo ≤ k ∧ k < lo + n then (st.1.releaseBins.set k (calcReleaseBin st.1 k)).getD k 0
        else st.1.releaseBins.getD k 0 := by
  induction n with
  | zero =>
    intro lo st k
    have h : ¬ (lo ≤ k ∧ k < lo + 0) := by omega
    rw [if_neg h]
    rfl
  | succ n ih =>
    intro lo st k
    simp only [List.range'_succ, List.foldl_cons]
    rw [ih (lo + 1) (gainStep lo st) k, gainStep_fst]
    by_cases hk : k = lo
    · subst hk
      simp
    · have hc : calcReleaseBin
          { st.1 with releaseBins := st.1.releaseBins.set lo (calcReleaseBin st.1 lo) } k =
          calcReleaseBin st.1 k := by
        apply calcReleaseBin_congr <;> simp [List.getD_eq_getElem?_getD, List.getElem?_set, Ne.symm hk]
      rw [hc]
      by_cases hr : lo + 1 ≤ k ∧ k < lo + 1 + n
      · have hr' : lo ≤ k ∧ k < lo + (n + 1) := by omega
        simp only [hr, hr', and_self, if_true]
        simp [List.getD_eq_getElem?_getD, List.getElem?_set, Ne.symm hk]
      · have hr' : ¬ (lo ≤ k ∧ k < lo + (n + 1)) := by omega
        simp only [hr, hr', if_false]
        simp [List.getD_eq_getElem?_getD, List.getElem?_set, Ne.symm hk]

theorem gainFold_buf_outside (n : Nat) :
    ∀ (lo : Nat) (st : PV_DecorTransExtract × List Mag) (k : Nat), (k < lo ∨ lo + n ≤ k) →
      ((List.range' lo n).foldl (fun s i => gainStep i s) st).2[k]? = st.2[k]? := by
  induction n with
  | zero => intro lo st k _; simp
  | succ n ih =>
    intro lo st k hk
    simp only [List.range'_succ, List.foldl_cons]
    rw [ih (lo + 1) (gainStep lo st) k (by omega)]
    have hne : lo ≠ k := by omega
    unfold gainStep
    split <;> simp [List.getElem?_set, hne]

theorem setFold_inside {α : Type} (v : α) (n : Nat) :
    ∀ (lo : Nat) (p : List α) (k : Nat), lo ≤ k → k < lo + n → k < p.length →
      ((List.range' lo n).foldl (fun p i => p.set i v) p)[k]? = some v := by
  induction n with
  | zero => intro lo p k h1 h2; omega
  | succ n ih =>
    intro lo p k h1 h2 h3
    simp only [List.range'_succ, List.foldl_cons]
    by_cases hk : k = lo
    · subst hk
      have : ∀ (m : Nat) (lo' : Nat) (q : List α), k < lo' →
          ((List.range' lo' m).foldl (fun p i => p.set i v) q)[k]? = q[k]? := by
        intro m
        induction m with
        | zero => intro lo' q _; simp
        | succ m ihm =>
          intro lo' q hlt
          simp only [List.range'_succ, List.foldl_cons]
          rw [ihm (lo' + 1) _ (by omega)]
          simp [List.getElem?_set, Nat.ne_of_gt hlt]
      rw [this n (k + 1) _ (by omega)]
      simp [List.getElem?_set, h3]
    · exact ih (lo + 1) _ k (by omega) (by omega) (by simpa using h3)


/-! ## The shape of a call -/

theorem prime_fields (s : PV_DecorTransExtract) (n : Nat) :
    (prime s n).betaVal = s.betaVal ∧ (prime s n).retTrans = s.retTrans ∧
      (prime s n).lowFreqCutVal = s.lowFreqCutVal ∧ (prime s n).initFirstCalc = false := by
  unfold prime
  split
  · exact ⟨rfl, rfl, rfl, rfl⟩
  · refine ⟨rfl, rfl, rfl, ?_⟩
    simpa using ‹¬ s.initFirstCalc = true›

theorem prime_of_ready (s : PV_DecorTransExtract) (n : Nat) (h : s.initFirstCalc = false) :
    prime s n = s := by
  unfold prime
  simp [h]

theorem next_accepted (s : PV_DecorTransExtract) (frame : List ℚ) (h : Accepted s frame) :
    PV_DecorTransExtract_next s frame = process (prime s frame.length) frame := by
  obtain ⟨h1, h2⟩ := h
  unfold PV_DecorTransExtract_next
  simp only [h1, ne_eq, not_true_eq_false, if_false]
  rw [if_neg (by omega)]

/-- The engine that enters the marking loop differs from the primed engine in
the two histories and the two scratch arrays only. -/
theorem marked_eq (u : PV_DecorTransExtract) (frame : List ℚ)
    (m : PV_DecorTransExtract × Nat)
    (h : markTransients frame (resetFlags (averageBins frame.length (storeBins frame u))) = some m) :
    ∃ pb lo bo fl, m.1 =
      { u with prevBins := pb, littleOmegaBins := lo, bigOmegaBins := bo, transFlagBins := fl } := by
  obtain ⟨bo, fl, hm⟩ := markTransients_eq _ _ _ h
  obtain ⟨pb, hs⟩ := storeBins_eq frame u
  obtain ⟨lo, ha⟩ := averageBins_eq frame.length (storeBins frame u)
  rw [hm, ha, hs]
  exact ⟨pb, lo, bo, fl, rfl⟩

theorem process_some (u : PV_DecorTransExtract) (frame : List ℚ) (s' : PV_DecorTransExtract)
    (out : List Mag) (h : process u frame = some (s', out)) :
    ∃ m, markTransients frame (resetFlags (averageBins frame.length (storeBins frame u))) = some m ∧
      s' = advance (shapeBins frame.length m.1 (cutLowBins m.1 (frame.map some))).1 ∧
      out = (shapeBins frame.length m.1 (cutLowBins m.1 (frame.map some))).2 := by
  unfold process at h
  simp only [Option.map_eq_some'] at h
  obtain ⟨m, hm, hr⟩ := h
  refine ⟨m, hm, ?_, ?_⟩
  · exact (congrArg Prod.fst hr).symm
  · exact (congrArg Prod.snd hr).symm


/-! ## Calls that complete: a cutoff of two bins or more -/

theorem u32_natCast (m : Nat) (h : m < 4294967296) : u32 (m : Int) = m := by
  unfold u32
  omega

theorem markDown_total (d : Nat) (hd : 1 ≤ d) :
    ∀ (n : Nat) (flags : List Bool), 1 ≤ n → n ≤ flags.length → n ≤ 4294967296 →
      ∃ fl, markDown d n flags = some fl ∧ fl.length = flags.length := by
  intro n
  induction n with
  | zero => intro flags h; omega
  | succ m ih =>
    intro flags _ hlen hm
    unfold markDown
    rw [u32_natCast m (by omega)]
    by_cases hdm : d ≤ m
    · rw [if_pos hdm, if_pos (by omega)]
      obtain ⟨fl, hfl, hl⟩ := ih (flags.set m true) (by omega) (by simp; omega) (by omega)
      exact ⟨fl, hfl, by simpa using hl⟩
    · rw [if_neg hdm]
      exact ⟨flags, rfl, rfl⟩

theorem foldlM_range'_total {σ : Type} (P : Nat → σ → Prop) (body : Nat → σ → Option σ) :
    ∀ (n lo : Nat) (s : σ), P lo s →
      (∀ i t, lo ≤ i → i < lo + n → P i t → ∃ t', body i t = some t' ∧ P (i + 1) t') →
      ∃ s', (List.range' lo n).foldlM (fun s i => body i s) s = some s' ∧ P (lo + n) s' := by
  intro n
  induction n with
  | zero => intro lo s h0 _; exact ⟨s, by simp, by simpa using h0⟩
  | succ n ih =>
    intro lo s h0 hstep
    obtain ⟨t, ht, hPt⟩ := hstep lo s (le_refl _) (by omega) h0
    obtain ⟨s', hs', hP⟩ := ih (lo + 1) t hPt
      (fun i u h1 h2 hu => hstep i u (by omega) (by omega) hu)
    refine ⟨s', ?_, ?_⟩
    · simp only [List.range'_succ, List.foldlM_cons, ht]
      exact hs'
    · have : lo + 1 + n = lo + (n + 1) := by omega
      rw [← this]
      exact hP

theorem markStep_total (mag : List ℚ) (i N cut : Nat) (st : PV_DecorTransExtract × Nat)
    (hcut : 2 ≤ cut) (hi : cut ≤ i) (hiN : i < N) (hN : N < 2147483648)
    (hr : st.2 ≤ i - cut) (hlen : st.1.transFlagBins.length = N) :
    ∃ st', markStep mag i st = some st' ∧ st'.2 ≤ i + 1 - cut ∧
      st'.1.transFlagBins.length = N := by
  unfold markStep
  simp only []
  split
  · refine ⟨_, rfl, ?_, hlen⟩
    have := Nat.mod_le (st.2 + 1) 4294967296
    simp only []
    omega
  · split
    · have hd : u32 (((i : Int) - 1) - (st.2 : Int)) = i - 1 - st.2 := by
        unfold u32
        omega
      rw [hd]
      obtain ⟨fl, hfl, hl⟩ := markDown_total (i - 1 - st.2) (by omega) i st.1.transFlagBins
        (by omega) (by omega) (by omega)
      refine ⟨_, by rw [hfl]; rfl, by simp, ?_⟩
      simpa [hlen] using hl
    · exact ⟨_, rfl, by simp, hlen⟩

theorem markTransients_total (frame : List ℚ) (u : PV_DecorTransExtract)
    (hcut : 2 ≤ u.lowFreqCutVal) (hN : frame.length < 2147483648)
    (hlen : u.transFlagBins.length = frame.length) :
    ∃ m, markTransients frame u = some m := by
  unfold markTransients forLoopM
  obtain ⟨m, hm, -⟩ := foldlM_range'_total
    (fun i (st : PV_DecorTransExtract × Nat) =>
      st.2 ≤ i - u.lowFreqCutVal ∧ st.1.transFlagBins.length = frame.length)
    (markStep frame) (frame.length - u.lowFreqCutVal) u.lowFreqCutVal (u, 0)
    ⟨by simp, hlen⟩
    (fun i t h1 h2 ht => by
      obtain ⟨t', h, h3, h4⟩ := markStep_total frame i frame.length u.lowFreqCutVal t hcut h1
        (by omega) hN ht.1 ht.2
      exact ⟨t', h, by omega, h4⟩)
  exact ⟨m, hm⟩

theorem process_total (u : PV_DecorTransExtract) (frame : List ℚ)
    (hbins : u.numFreqBins = frame.length) (hcut : 2 ≤ u.lowFreqCutVal)
    (hN : frame.length < 2147483648) : (process u frame).isSome = true := by
  obtain ⟨pb, hs⟩ := storeBins_eq frame u
  obtain ⟨lo, ha⟩ := averageBins_eq frame.length (storeBins frame u)
  obtain ⟨m, hm⟩ := markTransients_total frame
    (resetFlags (averageBins frame.length (storeBins frame u)))
    (by rw [ha, hs]; exact hcut) hN
    (by rw [ha, hs]; simp [resetFlags, memsetBool, hbins])
  unfold process
  simp only [hm, Option.map_some', Option.isSome_some]


/-! ## The closing step, the attack step and the gain -/

/-- The inner marking loop entered at `j = n - 1` with `diffBins = d >= 1`
flags the bins `d, ..., n - 1` and no other: with `d = (i - 1) - numTransBins`
and `n = i` these are `numTransBins + 1` bins. -/
theorem markDown_flags (d : Nat) (hd : 1 ≤ d) :
    ∀ (n : Nat) (flags : List Bool), 1 ≤ n → n ≤ flags.length → n ≤ 4294967296 →
      ∃ fl, markDown d n flags = some fl ∧ fl.length = flags.length ∧
        ∀ k, fl.getD k false = if d ≤ k ∧ k < n then true else flags.getD k false := by
  intro n
  induction n with
  | zero => intro flags h; omega
  | succ m ih =>
    intro flags _ hlen hm
    unfold markDown
    rw [u32_natCast m (by omega)]
    by_cases hdm : d ≤ m
    · rw [if_pos hdm, if_pos (by omega)]
      obtain ⟨fl, hfl, hl, hk⟩ := ih (flags.set m true) (by omega) (by simp; omega) (by omega)
      refine ⟨fl, hfl, by simpa using hl, fun k => ?_⟩
      rw [hk k]
      by_cases hkm : k = m
      · subst hkm
        have h1 : ¬ (d ≤ k ∧ k < k) := by omega
        have h2 : d ≤ k ∧ k < k + 1 := by omega
        have h3 : k < flags.length := by omega
        rw [if_neg h1, if_pos h2]
        simp [List.getD_eq_getElem?_getD, List.getElem?_set, h3]
      · by_cases hr : d ≤ k ∧ k < m
        · have h2 : d ≤ k ∧ k < m + 1 := by omega
          rw [if_pos hr, if_pos h2]
        · have h2 : ¬ (d ≤ k ∧ k < m + 1) := by omega
          rw [if_neg hr, if_neg h2]
          simp [List.getD_eq_getElem?_getD, List.getElem?_set, Ne.symm hkm]
    · rw [if_neg hdm]
      refine ⟨flags, rfl, rfl, fun k => ?_⟩
      have h2 : ¬ (d ≤ k ∧ k < m + 1) := by omega
      rw [if_neg h2]

/-- For a flagged bin `calcReleaseBin` takes the minimum with the average slot
at `littleOmegaIdx` itself. -/
theorem calcReleaseBin_flagged (unit : PV_DecorTransExtract) (k : Nat)
    (h : unit.transFlagBins.getD k false = true) :
    calcReleaseBin unit k =
      min (unit.betaVal * unit.releaseBins.getD k 0)
        (get2 unit.littleOmegaBins unit.littleOmegaIdx k) := by
  unfold calcReleaseBin
  have hneg : ¬ ((unit.littleOmegaIdx : Int) < 0) := by omega
  simp only [h, if_true, if_neg hneg, Int.toNat_ofNat]

/-- For a bin of non-zero magnitude the gains of the two modes are finite and
add up to 1. -/
theorem binGain_complement (rel m : ℚ) (hm : m ≠ 0) :
    binGain true rel m = some (1 - min rel m / m) ∧
      binGain false rel m = some (min rel m / m) ∧
      (1 - min rel m / m) + min rel m / m = 1 := by
  unfold binGain
  simp [hm]

/-! ## Claims on the release step, the cutoff and the two checks -/

theorem max_eq_max (a b : ℚ) : max a b = Max.max a b := by
  unfold max
  split
  · exact (max_eq_left (le_of_lt ‹a > b›)).symm
  · exact (max_eq_right (not_lt.mp ‹¬ a > b›)).symm

theorem MIN_VAL_pos : 0 < MIN_VAL := by
  unfold MIN_VAL
  norm_num

/-- The release step of a call that completes.  On every accepted frame on
which the call completes,
for every bin `k` from the cutoff on that is not flagged transient after the
marking pass, the new release value is the larger of `betaVal` times the
value before the call and `MIN_VAL = 10^-9`; it is at least `MIN_VAL` and
strictly positive. -/
theorem release_step_of_completed_call (s : PV_DecorTransExtract) (frame : List ℚ)
    (s' : PV_DecorTransExtract) (out : List Mag) (k : Nat)
    (hacc : Accepted s frame)
    (hshape : (prime s frame.length).releaseBins.length = frame.length)
    (hrun : PV_DecorTransExtract_next s frame = some (s', out))
    (hlo : s.lowFreqCutVal ≤ k) (hhi : k < frame.length)
    (hflag : s'.transFlagBins.getD k false = false) :
    s'.releaseBins.getD k 0 =
        Max.max (s.betaVal * (prime s frame.length).releaseBins.getD k 0) MIN_VAL ∧
      MIN_VAL = 1 / 10 ^ 9 ∧ MIN_VAL ≤ s'.releaseBins.getD k 0 ∧
      0 < s'.releaseBins.getD k 0 := by
  rw [next_accepted s frame hacc] at hrun
  obtain ⟨m, hm, hs', -⟩ := process_some _ _ _ _ hrun
  obtain ⟨pb, lo, bo, fl, hm1⟩ := marked_eq _ _ _ hm
  obtain ⟨rb, hrb⟩ := shapeBins_eq frame.length m.1 (cutLowBins m.1 (frame.map some))
  obtain ⟨a, b, hadv⟩ := advance_eq (shapeBins frame.length m.1 (cutLowBins m.1 (frame.map some))).1
  have hpf := prime_fields s frame.length
  have hflags : s'.transFlagBins = m.1.transFlagBins := by rw [hs', hadv, hrb]
  have hrel : s'.releaseBins =
      (shapeBins frame.length m.1 (cutLowBins m.1 (frame.map some))).1.releaseBins := by
    rw [hs', hadv]
  have hcutm : m.1.lowFreqCutVal = s.lowFreqCutVal := by rw [hm1]; exact hpf.2.2.1
  have hbeta : m.1.betaVal = s.betaVal := by rw [hm1]; exact hpf.1
  have hrelm : m.1.releaseBins = (prime s frame.length).releaseBins := by rw [hm1]
  have hval : s'.releaseBins.getD k 0 =
      Max.max (s.betaVal * (prime s frame.length).releaseBins.getD k 0) MIN_VAL := by
    rw [hrel]
    unfold shapeBins forLoop
    rw [gainFold_release, if_pos (by omega)]
    have hk : k < m.1.releaseBins.length := by rw [hrelm, hshape]; exact hhi
    rw [List.getD_eq_getElem?_getD, List.getElem?_set, if_pos rfl, if_pos hk]
    rw [hflags] at hflag
    unfold calcReleaseBin
    simp only [hflag, Bool.false_eq_true, if_false, Option.getD_some]
    rw [max_eq_max, hbeta, hrelm]
  refine ⟨hval, by unfold MIN_VAL; norm_num, ?_, ?_⟩
  · rw [hval]; exact le_max_right _ _
  · rw [hval]; exact lt_of_lt_of_le MIN_VAL_pos (le_max_right _ _)

/-- C7 (amended): bins below the cutoff.  On every accepted frame (size equal
to the captured bin count and cutoff not above it) on which the call
completes, every bin below the cutoff is exactly 0 in the output when
`retTrans` is true and exactly the input magnitude when it is false; the
call does complete whenever the cutoff is at least 2. -/
theorem C7_bins_below_cutoff (s : PV_DecorTransExtract) (frame : List ℚ)
    (hacc : Accepted s frame) :
    (2 ≤ s.lowFreqCutVal → frame.length < 2147483648 →
        (PV_DecorTransExtract_next s frame).isSome = true) ∧
      ∀ (s' : PV_DecorTransExtract) (out : List Mag),
        PV_DecorTransExtract_next s frame = some (s', out) →
        ∀ k, k < s.lowFreqCutVal →
          out[k]? = some (some (if s.retTrans = true then 0 else frame.getD k 0)) := by
  have hpf := prime_fields s frame.length
  constructor
  · intro hcut hN
    rw [next_accepted s frame hacc]
    exact process_total _ _ hacc.1 (by rw [hpf.2.2.1]; exact hcut) hN
  · intro s' out hrun k hk
    have hkN : k < frame.length := by
      have := hacc.2
      rw [hpf.2.2.1] at this
      omega
    rw [next_accepted s frame hacc] at hrun
    obtain ⟨m, hm, -, hout⟩ := process_some _ _ _ _ hrun
    obtain ⟨pb, lo, bo, fl, hm1⟩ := marked_eq _ _ _ hm
    have hcutm : m.1.lowFreqCutVal = s.lowFreqCutVal := by rw [hm1]; exact hpf.2.2.1
    have hret : m.1.retTrans = s.retTrans := by rw [hm1]; exact hpf.2.1
    rw [hout]
    unfold shapeBins forLoop
    rw [gainFold_buf_outside _ _ _ _ (Or.inl (by omega))]
    unfold cutLowBins
    rw [hret, hcutm]
    split
    · unfold forLoop
      rw [setFold_inside _ _ _ _ _ (Nat.zero_le _) (by omega) (by simpa using hkN)]
    · simp [List.getD_eq_getElem?_getD, List.getElem?_eq_getElem hkN]

/-- C9: a frame whose size differs from the captured bin count.  For every
engine that has seen its first frame and every frame of another size, the
call returns the frame as it was and the engine as it was, every field
included; hence a following frame is processed as if the call had not
happened. -/
theorem C9_frame_size_mismatch_atomic (s : PV_DecorTransExtract) (frame : List ℚ)
    (hready : s.initFirstCalc = false) (hne : frame.length ≠ s.numFreqBins) :
    PV_DecorTransExtract_next s frame = some (s, frame.map some) ∧
      ∀ following : List ℚ,
        (PV_DecorTransExtract_next s frame).bind
            (fun r => PV_DecorTransExtract_next r.1 following) =
          PV_DecorTransExtract_next s following := by
  have h : PV_DecorTransExtract_next s frame = some (s, frame.map some) := by
    unfold PV_DecorTransExtract_next
    simp only [prime_of_ready s _ hready]
    rw [if_pos (Ne.symm hne)]
  exact ⟨h, fun following => by rw [h]; rfl⟩

/-- C10 (amended): a cutoff above the bin count.  For every call with a frame
of the captured size whose cutoff exceeds the bin count, the engine sets the
cutoff to 0 and returns without processing that frame: the frame is returned
as it was and, the cutoff apart, the engine is the one the first-call
initialisation left (no history written, no release update, ring indices not
advanced).  The next frame of that size is processed, with cutoff 0. -/
theorem C10_cutoff_correction_returns_early (s : PV_DecorTransExtract) (frame : List ℚ)
    (hsize : (prime s frame.length).numFreqBins = frame.length)
    (hcut : frame.length < s.lowFreqCutVal) :
    PV_DecorTransExtract_next s frame =
        some ({ prime s frame.length with lowFreqCutVal := 0 }, frame.map some) ∧
      ∀ following : List ℚ, following.length = frame.length →
        (PV_DecorTransExtract_next s frame).bind
            (fun r => PV_DecorTransExtract_next r.1 following) =
          process { prime s frame.length with lowFreqCutVal := 0 } following := by
  have hpf := prime_fields s frame.length
  have h : PV_DecorTransExtract_next s frame =
      some ({ prime s frame.length with lowFreqCutVal := 0 }, frame.map some) := by
    unfold PV_DecorTransExtract_next
    simp only [hsize, ne_eq, not_true_eq_false, if_false]
    rw [if_pos (by rw [hpf.2.2.1]; exact hcut)]
  refine ⟨h, fun following hlen => ?_⟩
  rw [h]
  simp only [Option.some_bind]
  have key : ∀ t : PV_DecorTransExtract, t.initFirstCalc = false →
      t.numFreqBins = following.length → t.lowFreqCutVal = 0 →
      PV_DecorTransExtract_next t following = process t following := by
    intro t h1 h2 h3
    have hacc : Accepted t following := by
      unfold Accepted
      rw [prime_of_ready _ _ h1]
      exact ⟨h2, by omega⟩
    rw [next_accepted _ _ hacc, prime_of_ready _ _ h1]
  exact key _ hpf.2.2.2 (by rw [hlen]; exact hsize) rfl


/-! ## The code at concrete frames -/

/-- C1 at a failing input: after the first frame `[2,2,2,2,2,2]` the baseline
of every bin is 2; in the second frame `[1,1,3,3,1,1]` the bins above the
threshold are 2 and 3, the run is closed at bin 4 with run counter 2, and the
flagged bins are 1, 2 and 3: three bins, one more than the run, the extra one
being the below-threshold bin 1. -/
theorem C1_closing_step_flags_one_bin_more :
    ((PV_DecorTransExtract_next oneSlot [2, 2, 2, 2, 2, 2]).bind
      (fun r => PV_DecorTransExtract_next r.1 [1, 1, 3, 3, 1, 1])).map
        (fun r => (r.1.alphaVal, r.1.dVal, r.1.bigOmegaBins, r.1.transFlagBins)) =
      some (1, 1, [2, 2, 2, 2, 2, 2], [false, true, true, true, false, false]) := by
  decide!

/-- C2 at a failing input: after the first frame `[20]` the ring index is 1
and the only other slot, slot 0, holds 20, yet `calcMinBin` returns
`MAX_VAL = 9.999999999`; the baseline stored during the second frame is that
value and not 20. -/
theorem C2_baseline_capped_by_MAX_VAL :
    (PV_DecorTransExtract_next oneSlot [20]).map
        (fun r => (r.1.jVal, r.1.littleOmegaIdx, r.1.littleOmegaBins, calcMinBin r.1 0)) =
      some (2, 1, [[20], [0]], 9999999999 / 1000000000) ∧
    ((PV_DecorTransExtract_next oneSlot [20]).bind
      (fun r => PV_DecorTransExtract_next r.1 [15])).map (fun r => r.1.bigOmegaBins) =
      some [9999999999 / 1000000000] := by
  decide!

/-- C3 at a failing input: first frame `[1,1,10^-10,1]`, second frame
`[1,1,1,1]`.  During the second call the ring index is 1, the release value of
bin 2 before the call is `10^-9`, the preceding slot 0 holds `10^-10` for bin 2
and the slot written by this call, slot 1, holds 1; bin 2 is flagged and its
new release value is `10^-9 / 2`, the minimum taken with slot 1, where the
minimum with the preceding slot is `10^-10`. -/
theorem C3_attack_reads_current_slot :
    ((PV_DecorTransExtract_next oneSlot [1, 1, 1 / 10000000000, 1]).bind
      (fun r => (PV_DecorTransExtract_next r.1 [1, 1, 1, 1]).map
        (fun r2 => (r.1.littleOmegaIdx, r.1.releaseBins.getD 2 0,
          get2 r2.1.littleOmegaBins 0 2, get2 r2.1.littleOmegaBins 1 2,
          r2.1.transFlagBins.getD 2 false, r2.1.releaseBins.getD 2 0)))) =
      some (1, 1 / 1000000000, 1 / 10000000000, 1, true, 1 / 2000000000) ∧
    min (1 / 2 * (1 / 1000000000)) (1 / 10000000000) = 1 / 10000000000 := by
  decide!

/-- C5 at a failing input: `firstCalc` fills every byte of `releaseBins` with
1, so every release value is the float of bit pattern `0x01010101`,
`8454401 / 2^148`, and not 1; in the warm-up scenario the first update of a
bin that is not flagged gives `10^-9`, not `0.5`. -/
theorem C5_initial_envelope_is_not_one :
    (∀ unit : PV_DecorTransExtract,
      (firstCalc unit).releaseBins = List.replicate unit.numFreqBins (8454401 / 2 ^ 148)) ∧
    (prime warmup 4).releaseBins.getD 0 0 ≠ 1 ∧
    (PV_DecorTransExtract_next warmup [1, 1, 1, 1]).map
        (fun r => (r.1.transFlagBins, r.1.releaseBins)) =
      some ([false, false, false, false],
        [1 / 1000000000, 1 / 1000000000, 1 / 1000000000, 1 / 1000000000]) := by
  refine ⟨fun unit => ?_, by decide!, by decide!⟩
  have h : float32OfBits (16843009 * u8 1) = 8454401 / 2 ^ 148 := by decide!
  unfold firstCalc memsetFloat
  simp only [h]

/-- C6 at a failing input: for a bin of magnitude 0 the quotient `kVal / mag`
is a division by zero in both modes; on the first frame `[0,1]` the output of
bin 0 is not a finite number, in extract mode and in residual mode. -/
theorem C6_zero_magnitude_divides_by_zero :
    (∀ (retTrans : Bool) (rel : ℚ), binGain retTrans rel 0 = none) ∧
    (PV_DecorTransExtract_next (PV_DecorTransExtract_Ctor true 2 2 1 (1/2) 1 0) [0, 1]).map
        (fun r => r.2) = some [none, some (999999999 / 1000000000)] ∧
    (PV_DecorTransExtract_next (PV_DecorTransExtract_Ctor false 2 2 1 (1/2) 1 0) [0, 1]).map
        (fun r => r.2) = some [none, some (1 / 1000000000)] := by
  refine ⟨fun retTrans rel => ?_, by decide!, by decide!⟩
  unfold binGain
  cases retTrans <;> simp

/-- C7, counterexample: extract mode, cutoff 5 and a first frame `[1,1,1,1]`
of four bins; every bin is below the cutoff and the output is the input, not
0. -/
theorem C7_counterexample_cutoff_above_bin_count :
    (PV_DecorTransExtract_Ctor true 2 2 1 (1/2) 1 5).retTrans = true ∧
    (PV_DecorTransExtract_next (PV_DecorTransExtract_Ctor true 2 2 1 (1/2) 1 5)
        [1, 1, 1, 1]).map (fun r => r.2) = some [some 1, some 1, some 1, some 1] := by
  decide!

/-- C8 at a failing input: the two runs on the first frame `[0,3]` leave the
same release values, and for bin 0 the gain is not a finite number in either
run, so the two gains do not add up to 1. -/
theorem C8_gains_undefined_on_zero_magnitude :
    (PV_DecorTransExtract_next (PV_DecorTransExtract_Ctor true 2 2 1 (1/2) 1 0) [0, 3]).map
        (fun r => (r.1.releaseBins, binGain true (r.1.releaseBins.getD 0 0) 0, r.2.getD 0 none)) =
      some ([1 / 1000000000, 1 / 1000000000], none, none) ∧
    (PV_DecorTransExtract_next (PV_DecorTransExtract_Ctor false 2 2 1 (1/2) 1 0) [0, 3]).map
        (fun r => (r.1.releaseBins, binGain false (r.1.releaseBins.getD 0 0) 0, r.2.getD 0 none)) =
      some ([1 / 1000000000, 1 / 1000000000], none, none) := by
  decide!

/-- C10, counterexample: cutoff 7 and a first frame `[3,1,2]` of three bins;
the cutoff becomes 0, and the frame is not processed: both ring indices are
still 0 where a processed frame leaves 1, both histories are still zero and
the frame is returned as it was. -/
theorem C10_counterexample_frame_not_processed :
    (PV_DecorTransExtract_next (PV_DecorTransExtract_Ctor false 2 2 1 (1/2) 1 7) [3, 1, 2]).map
        (fun r => (r.1.lowFreqCutVal, r.1.prevBinsIdx, r.1.littleOmegaIdx, r.2)) =
      some (0, 0, 0, [some 3, some 1, some 2]) ∧
    (PV_DecorTransExtract_next (PV_DecorTransExtract_Ctor false 2 2 1 (1/2) 1 7) [3, 1, 2]).map
        (fun r => (r.1.prevBins, r.1.littleOmegaBins)) =
      some ([[0, 0, 0], [0, 0, 0]], [[0, 0, 0], [0, 0, 0]]) ∧
    (process { prime (PV_DecorTransExtract_Ctor false 2 2 1 (1/2) 1 7) 3 with
        lowFreqCutVal := 0 } [3, 1, 2]).map
        (fun r => (r.1.prevBinsIdx, r.1.littleOmegaIdx, r.1.prevBins)) =
      some (1, 1, [[3, 1, 2], [0, 0, 0]]) := by
  refine ⟨?_, ?_, ?_⟩ <;> decide!

/-! ## Witnesses -/

/-- Example of the release step: the warm-up engine on its first frame
`[1,1,1,1]`, bin 0, which
is not flagged; its release value becomes `10^-9`. -/
theorem release_step_of_completed_call_example :
    Accepted warmup [1, 1, 1, 1] ∧
    PV_DecorTransExtract_next warmup [1, 1, 1, 1] =
      some (afterWarmup, List.replicate 4 (some (1 / 1000000000))) ∧
    afterWarmup.releaseBins.getD 0 0 =
      Max.max (warmup.betaVal * (prime warmup 4).releaseBins.getD 0 0) MIN_VAL ∧
    0 < afterWarmup.releaseBins.getD 0 0 :=
  have h := release_step_of_completed_call warmup [1, 1, 1, 1] afterWarmup
    (List.replicate 4 (some (1 / 1000000000))) 0 (by decide!) (by decide!) (by decide!)
    (by decide) (by decide) (by decide)
  ⟨by decide!, by decide!, h.1, h.2.2.2⟩

/-- Witness of C7: extract mode with cutoff 2 on the first frame `[1,1,1,1]`; the
call completes and bin 1 is 0 in the output. -/
theorem C7_bins_below_cutoff_witness :
    Accepted cutTwo [1, 1, 1, 1] ∧
    (PV_DecorTransExtract_next cutTwo [1, 1, 1, 1]).isSome = true ∧
    PV_DecorTransExtract_next cutTwo [1, 1, 1, 1] =
      some (afterCutTwo,
        [some 0, some 0, some (999999999 / 1000000000), some (999999999 / 1000000000)]) ∧
    ([some 0, some 0, some (999999999 / 1000000000), some (999999999 / 1000000000)] :
        List Mag)[1]? = some (some 0) :=
  have h := C7_bins_below_cutoff cutTwo [1, 1, 1, 1] (by decide!)
  ⟨by decide!, h.1 (by decide) (by decide), by decide!,
    h.2 afterCutTwo
      [some 0, some 0, some (999999999 / 1000000000), some (999999999 / 1000000000)]
      (by decide!) 1 (by decide)⟩

/-- Witness of C9: the mismatch scenario, a frame of five bins after the bin count
4 has been captured. -/
theorem C9_frame_size_mismatch_atomic_witness :
    afterWarmup.initFirstCalc = false ∧ [1, 2, 3, 4, 5].length ≠ afterWarmup.numFreqBins ∧
    PV_DecorTransExtract_next afterWarmup [1, 2, 3, 4, 5] =
      some (afterWarmup, [some 1, some 2, some 3, some 4, some 5]) :=
  ⟨rfl, by decide,
    (C9_frame_size_mismatch_atomic afterWarmup [1, 2, 3, 4, 5] rfl (by decide)).1⟩

/-- Witness of C10: cutoff 9 and a first frame of four bins. -/
theorem C10_cutoff_correction_returns_early_witness :
    (prime (PV_DecorTransExtract_Ctor true 2 2 1 (1/2) 1 9) 4).numFreqBins = 4 ∧
    4 < (PV_DecorTransExtract_Ctor true 2 2 1 (1/2) 1 9).lowFreqCutVal ∧
    PV_DecorTransExtract_next (PV_DecorTransExtract_Ctor true 2 2 1 (1/2) 1 9) [1, 2, 3, 4] =
      some ({ prime (PV_DecorTransExtract_Ctor true 2 2 1 (1/2) 1 9) 4 with lowFreqCutVal := 0 },
        [some 1, some 2, some 3, some 4]) :=
  ⟨rfl, by decide,
    (C10_cutoff_correction_returns_early (PV_DecorTransExtract_Ctor true 2 2 1 (1/2) 1 9)
      [1, 2, 3, 4] rfl (by decide)).1⟩

/-! ## Configuration and ring indices through a call -/

theorem prime_config (s : PV_DecorTransExtract) (n : Nat) :
    (prime s n).iVal = s.iVal ∧ (prime s n).jVal = s.jVal ∧ (prime s n).dVal = s.dVal ∧
      (prime s n).alphaVal = s.alphaVal ∧ (prime s n).prevBinsIdx = s.prevBinsIdx ∧
      (prime s n).littleOmegaIdx = s.littleOmegaIdx := by
  unfold prime
  split <;> exact ⟨rfl, rfl, rfl, rfl, rfl, rfl⟩

theorem advance_prevBinsIdx (u : PV_DecorTransExtract) :
    (advance u).prevBinsIdx =
      if u.prevBinsIdx < u32 ((u.iVal : Int) - 1) then u.prevBinsIdx + 1 else 0 := by
  unfold advance
  simp only []
  split <;> split <;> simp_all

theorem advance_littleOmegaIdx (u : PV_DecorTransExtract) :
    (advance u).littleOmegaIdx =
      if u.littleOmegaIdx < u32 ((u.jVal : Int) - 1) then u.littleOmegaIdx + 1 else 0 := by
  unfold advance
  simp only []
  split <;> split <;> simp_all

theorem advance_config (u : PV_DecorTransExtract) :
    (advance u).iVal = u.iVal ∧ (advance u).jVal = u.jVal ∧ (advance u).dVal = u.dVal ∧
      (advance u).alphaVal = u.alphaVal ∧ (advance u).betaVal = u.betaVal ∧
      (advance u).retTrans = u.retTrans ∧ (advance u).lowFreqCutVal = u.lowFreqCutVal ∧
      (advance u).numFreqBins = u.numFreqBins ∧ (advance u).initFirstCalc = u.initFirstCalc ∧
      (advance u).transFlagBins = u.transFlagBins ∧ (advance u).releaseBins = u.releaseBins ∧
      (advance u).prevBins = u.prevBins ∧ (advance u).littleOmegaBins = u.littleOmegaBins ∧
      (advance u).bigOmegaBins = u.bigOmegaBins := by
  obtain ⟨a, b, h⟩ := advance_eq u
  rw [h]
  exact ⟨rfl, rfl, rfl, rfl, rfl, rfl, rfl, rfl, rfl, rfl, rfl, rfl, rfl, rfl⟩

/-- What a processed frame leaves: the engine after the marking loop with new
release values, then the advance of the two indices. -/
theorem process_result (u : PV_DecorTransExtract) (frame : List ℚ) (s' : PV_DecorTransExtract)
    (out : List Mag) (h : process u frame = some (s', out)) :
    ∃ pb lo bo fl rb, s' = advance
      { u with prevBins := pb, littleOmegaBins := lo, bigOmegaBins := bo, transFlagBins := fl,
               releaseBins := rb } := by
  obtain ⟨m, hm, hs', -⟩ := process_some u frame s' out h
  obtain ⟨pb, lo, bo, fl, hm1⟩ := marked_eq u frame m hm
  obtain ⟨rb, hrb⟩ := shapeBins_eq frame.length m.1 (cutLowBins m.1 (frame.map some))
  refine ⟨pb, lo, bo, fl, rb, ?_⟩
  rw [hs', hrb, hm1]

theorem ring_step (n i : Nat) (hn : 1 ≤ n) (hn' : n < 4294967296) (hi : i < n) :
    (if i < u32 ((n : Int) - 1) then i + 1 else 0) = (i + 1) % n := by
  have hu : u32 ((n : Int) - 1) = n - 1 := by
    unfold u32
    omega
  rw [hu]
  split
  · rw [Nat.mod_eq_of_lt (by omega)]
  · have : i + 1 = n := by omega
    rw [this, Nat.mod_self]

/-- The effect of a call that returns on the configuration and the indices. -/
theorem next_indices (s : PV_DecorTransExtract) (frame : List ℚ) (s' : PV_DecorTransExtract)
    (out : List Mag) (h : PV_DecorTransExtract_next s frame = some (s', out)) :
    s'.iVal = s.iVal ∧ s'.jVal = s.jVal ∧
      (Accepted s frame →
        s'.prevBinsIdx =
          (if s.prevBinsIdx < u32 ((s.iVal : Int) - 1) then s.prevBinsIdx + 1 else 0) ∧
        s'.littleOmegaIdx =
          (if s.littleOmegaIdx < u32 ((s.jVal : Int) - 1) then s.littleOmegaIdx + 1 else 0)) ∧
      (¬ Accepted s frame →
        s'.prevBinsIdx = s.prevBinsIdx ∧ s'.littleOmegaIdx = s.littleOmegaIdx) := by
  have hc := prime_config s frame.length
  by_cases hacc : Accepted s frame
  · rw [next_accepted s frame hacc] at h
    obtain ⟨pb, lo, bo, fl, rb, hs'⟩ := process_result _ _ _ _ h
    refine ⟨?_, ?_, fun _ => ⟨?_, ?_⟩, fun hn => absurd hacc hn⟩
    · rw [hs', (advance_config _).1]; exact hc.1
    · rw [hs', (advance_config _).2.1]; exact hc.2.1
    · rw [hs', advance_prevBinsIdx]
      simp only [hc.1, hc.2.2.2.2.1]
    · rw [hs', advance_littleOmegaIdx]
      simp only [hc.2.1, hc.2.2.2.2.2]
  · unfold PV_DecorTransExtract_next at h
    simp only [] at h
    unfold Accepted at hacc
    split at h
    · cases h
      exact ⟨hc.1, hc.2.1, fun ha => absurd ha hacc, fun _ => ⟨hc.2.2.2.2.1, hc.2.2.2.2.2⟩⟩
    · split at h
      · cases h
        exact ⟨hc.1, hc.2.1, fun ha => absurd ha hacc, fun _ => ⟨hc.2.2.2.2.1, hc.2.2.2.2.2⟩⟩
      · exfalso
        apply hacc
        constructor
        · simpa using ‹¬ (prime s frame.length).numFreqBins ≠ frame.length›
        · have h1 : (prime s frame.length).numFreqBins = frame.length := by
            simpa using ‹¬ (prime s frame.length).numFreqBins ≠ frame.length›
          have h2 := ‹¬ (prime s frame.length).lowFreqCutVal > (prime s frame.length).numFreqBins›
          omega

theorem reachable_indices (s : PV_DecorTransExtract) (hr : Reachable s)
    (hI : 1 ≤ s.iVal) (hI' : s.iVal < 4294967296) (hJ : 1 ≤ s.jVal)
    (hJ' : s.jVal < 4294967296) : s.prevBinsIdx < s.iVal ∧ s.littleOmegaIdx < s.jVal := by
  unfold Reachable at hr
  induction hr with
  | ctor retTrans iVal jVal alphaVal betaVal dVal lowFreqCutVal =>
    exact ⟨hI, hJ⟩
  | call s s' frame out _ _ hnext ih =>
    obtain ⟨h1, h2, h3, h4⟩ := next_indices s frame s' out hnext
    rw [h1] at hI hI'
    rw [h2] at hJ hJ'
    obtain ⟨ihI, ihJ⟩ := ih hI hI' hJ hJ'
    by_cases hacc : Accepted s frame
    · obtain ⟨h5, h6⟩ := h3 hacc
      rw [h5, h6, h1, h2, ring_step _ _ hI hI' ihI, ring_step _ _ hJ hJ' ihJ]
      exact ⟨Nat.mod_lt _ (by omega), Nat.mod_lt _ (by omega)⟩
    · obtain ⟨h5, h6⟩ := h4 hacc
      rw [h5, h6, h1, h2]
      exact ⟨ihI, ihJ⟩

/-- Ring indices through calls that complete.  With `1 <= iVal` and
`1 <= jVal` (both `unsigned int`),
in every engine reachable from the constructor `prevBinsIdx < iVal` and
`littleOmegaIdx < jVal`; a call that processes its frame leaves
`(prevBinsIdx + 1) mod iVal` and `(littleOmegaIdx + 1) mod jVal`, and a call
that skips processing (size mismatch, cutoff above the bin count) leaves both
indices as they were. -/
theorem ring_indices_of_completed_call (s : PV_DecorTransExtract) (hr : Reachable s)
    (hI : 1 ≤ s.iVal) (hI' : s.iVal < 4294967296) (hJ : 1 ≤ s.jVal)
    (hJ' : s.jVal < 4294967296) :
    (s.prevBinsIdx < s.iVal ∧ s.littleOmegaIdx < s.jVal) ∧
      ∀ (frame : List ℚ) (s' : PV_DecorTransExtract) (out : List Mag),
        PV_DecorTransExtract_next s frame = some (s', out) →
        (Accepted s frame →
          s'.prevBinsIdx = (s.prevBinsIdx + 1) % s.iVal ∧
          s'.littleOmegaIdx = (s.littleOmegaIdx + 1) % s.jVal) ∧
        (¬ Accepted s frame →
          s'.prevBinsIdx = s.prevBinsIdx ∧ s'.littleOmegaIdx = s.littleOmegaIdx) := by
  have hidx := reachable_indices s hr hI hI' hJ hJ'
  refine ⟨hidx, fun frame s' out hnext => ?_⟩
  obtain ⟨-, -, h3, h4⟩ := next_indices s frame s' out hnext
  refine ⟨fun hacc => ?_, h4⟩
  obtain ⟨h5, h6⟩ := h3 hacc
  rw [h5, h6, ring_step _ _ hI hI' hidx.1, ring_step _ _ hJ hJ' hidx.2]
  exact ⟨rfl, rfl⟩

/-! ## The sizes of the arrays -/

theorem set2_length (a : List (List ℚ)) (r c : Nat) (v : ℚ) :
    (set2 a r c v).length = a.length := by
  unfold set2
  simp

theorem set2_rows (a : List (List ℚ)) (r c n : Nat) (v : ℚ)
    (h : ∀ row ∈ a, row.length = n) : ∀ row ∈ set2 a r c v, row.length = n := by
  intro row hrow
  unfold set2 at hrow
  by_cases hr : r < a.length
  · rcases List.mem_or_eq_of_mem_set hrow with hmem | heq
    · exact h row hmem
    · rw [heq, List.length_set]
      apply h
      rw [List.getD_eq_getElem?_getD, List.getElem?_eq_getElem hr]
      exact List.getElem_mem hr
  · rw [List.set_eq_of_length_le (by omega)] at hrow
    exact h row hrow

theorem prime_shaped (s : PV_DecorTransExtract) (n : Nat) (h : s.initFirstCalc = true) :
    Shaped (prime s n) ∧ (prime s n).numFreqBins = n := by
  unfold prime
  simp only [h, if_true]
  unfold Shaped firstCalc memsetFloat
  refine ⟨⟨by simp, by simp, by simp, by simp, ?_, by simp, ?_⟩, rfl⟩
  · intro row hrow
    simp only [List.mem_replicate] at hrow
    rw [hrow.2]
    simp
  · intro row hrow
    simp only [List.mem_replicate] at hrow
    rw [hrow.2]
    simp

theorem storeBins_shaped (frame : List ℚ) (u : PV_DecorTransExtract) (h : Shaped u) :
    Shaped (storeBins frame u) := by
  unfold storeBins
  refine forLoop_inv (fun t => Shaped t ∧ t.numFreqBins = u.numFreqBins) _ _ _ u ⟨h, rfl⟩ ?_ |>.1
  rintro i t ⟨⟨h1, h2, h3, h4, h5, h6, h7⟩, hn⟩
  exact ⟨⟨h1, h2, h3, by rw [set2_length]; exact h4, set2_rows _ _ _ _ _ h5, h6, h7⟩, hn⟩

theorem averageBins_shaped (numbins : Nat) (u : PV_DecorTransExtract) (h : Shaped u) :
    Shaped (averageBins numbins u) := by
  unfold averageBins
  refine forLoop_inv (fun t => Shaped t) _ _ _ u h ?_
  rintro i t ⟨h1, h2, h3, h4, h5, h6, h7⟩
  exact ⟨h1, h2, h3, h4, h5, by rw [set2_length]; exact h6, set2_rows _ _ _ _ _ h7⟩

theorem resetFlags_shaped (u : PV_DecorTransExtract) (h : Shaped u) :
    Shaped (resetFlags u) := by
  obtain ⟨h1, h2, h3, h4, h5, h6, h7⟩ := h
  exact ⟨by simp [resetFlags, memsetBool], h2, h3, h4, h5, h6, h7⟩

theorem markDown_length (d : Nat) :
    ∀ (n : Nat) (flags fl : List Bool), markDown d n flags = some fl →
      fl.length = flags.length := by
  intro n
  induction n with
  | zero =>
    intro flags fl h
    unfold markDown at h
    split at h
    · cases h
    · cases h; rfl
  | succ m ih =>
    intro flags fl h
    unfold markDown at h
    split at h
    · split at h
      · have := ih _ _ h
        simpa using this
      · cases h
    · cases h; rfl

theorem markStep_shaped (mag : List ℚ) (i : Nat) (st st' : PV_DecorTransExtract × Nat)
    (h : markStep mag i st = some st') (hs : Shaped st.1) : Shaped st'.1 := by
  obtain ⟨h1, h2, h3, h4, h5, h6, h7⟩ := hs
  unfold markStep at h
  simp only [] at h
  split at h
  · cases h
    exact ⟨h1, h2, by simpa using h3, h4, h5, h6, h7⟩
  · split at h
    · simp only [Option.map_eq_some'] at h
      obtain ⟨fl, hfl, rfl⟩ := h
      have hl := markDown_length _ _ _ _ hfl
      exact ⟨by rw [hl]; exact h1, h2, by simpa using h3, h4, h5, h6, h7⟩
    · cases h
      exact ⟨h1, h2, by simpa using h3, h4, h5, h6, h7⟩

theorem markTransients_shaped (frame : List ℚ) (u : PV_DecorTransExtract)
    (m : PV_DecorTransExtract × Nat) (h : markTransients frame u = some m) (hs : Shaped u) :
    Shaped m.1 := by
  unfold markTransients at h
  exact forLoopM_inv (fun t => Shaped t.1) _ _ _ _ m h hs
    (fun i t t' ht hP => markStep_shaped frame i t t' ht hP)

theorem shapeBins_shaped (numbins : Nat) (u : PV_DecorTransExtract) (p : List Mag)
    (h : Shaped u) : Shaped (shapeBins numbins u p).1 := by
  unfold shapeBins
  refine forLoop_inv (fun t => Shaped t.1) _ _ _ (u, p) h ?_
  rintro i t ⟨h1, h2, h3, h4, h5, h6, h7⟩
  rw [gainStep_fst]
  exact ⟨h1, by simpa using h2, h3, h4, h5, h6, h7⟩

theorem advance_shaped (u : PV_DecorTransExtract) (h : Shaped u) : Shaped (advance u) := by
  obtain ⟨a, b, hadv⟩ := advance_eq u
  rw [hadv]
  exact h

theorem process_shaped (u : PV_DecorTransExtract) (frame : List ℚ) (s' : PV_DecorTransExtract)
    (out : List Mag) (h : process u frame = some (s', out)) (hs : Shaped u) : Shaped s' := by
  obtain ⟨m, hm, hs', -⟩ := process_some u frame s' out h
  rw [hs']
  exact advance_shaped _ (shapeBins_shaped _ _ _ (markTransients_shaped _ _ _ hm
    (resetFlags_shaped _ (averageBins_shaped _ _ (storeBins_shaped _ _ hs)))))

/-- Every engine a call returns has been primed and has arrays of the captured
size. -/
theorem next_shaped (s : PV_DecorTransExtract) (frame : List ℚ) (s' : PV_DecorTransExtract)
    (out : List Mag) (h : PV_DecorTransExtract_next s frame = some (s', out))
    (hs : s.initFirstCalc = true ∨ Shaped s) : s'.initFirstCalc = false ∧ Shaped s' := by
  have hp : Shaped (prime s frame.length) := by
    cases hi : s.initFirstCalc with
    | true => exact (prime_shaped s frame.length hi).1
    | false =>
      rw [prime_of_ready s _ hi]
      rcases hs with hs | hs
      · rw [hi] at hs; cases hs
      · exact hs
  have hr := (prime_fields s frame.length).2.2.2
  unfold PV_DecorTransExtract_next at h
  simp only [] at h
  split at h
  · cases h; exact ⟨hr, hp⟩
  · split at h
    · cases h; exact ⟨hr, hp⟩
    · refine ⟨?_, process_shaped _ _ _ _ h hp⟩
      obtain ⟨pb, lo, bo, fl, rb, hs'⟩ := process_result _ _ _ _ h
      rw [hs', (advance_config _).2.2.2.2.2.2.2.2.1]
      exact hr

theorem reachableBy_shaped (ok : List ℚ → Prop) (s : PV_DecorTransExtract)
    (hr : ReachableBy ok s) : s.initFirstCalc = true ∨ Shaped s := by
  induction hr with
  | ctor retTrans iVal jVal alphaVal betaVal dVal lowFreqCutVal => exact Or.inl rfl
  | call s s' frame out _ _ hnext ih => exact Or.inr (next_shaped s frame s' out hnext ih).2

theorem reachableBy_prime_shaped (ok : List ℚ → Prop) (s : PV_DecorTransExtract)
    (hr : ReachableBy ok s) (frame : List ℚ) (hacc : Accepted s frame) :
    Shaped (prime s frame.length) ∧ (prime s frame.length).numFreqBins = frame.length := by
  refine ⟨?_, hacc.1⟩
  cases hi : s.initFirstCalc with
  | true => exact (prime_shaped s frame.length hi).1
  | false =>
    rw [prime_of_ready s _ hi]
    rcases reachableBy_shaped ok s hr with hs | hs
    · rw [hi] at hs; cases hs
    · exact hs

/-! ## The marking loop -/

theorem calcMinBin_congr (u v : PV_DecorTransExtract) (k : Nat)
    (h1 : u.littleOmegaIdx = v.littleOmegaIdx) (h2 : u.jVal = v.jVal)
    (h3 : u.littleOmegaBins = v.littleOmegaBins) : calcMinBin u k = calcMinBin v k := by
  unfold calcMinBin
  rw [h1, h2, h3]

theorem foldlM_range'_inv {σ : Type} (P : Nat → σ → Prop) (body : Nat → σ → Option σ) :
    ∀ (n lo : Nat) (s s' : σ), (List.range' lo n).foldlM (fun s i => body i s) s = some s' →
      P lo s →
      (∀ i t t', lo ≤ i → i < lo + n → body i t = some t' → P i t → P (i + 1) t') →
      P (lo + n) s' := by
  intro n
  induction n with
  | zero =>
    intro lo s s' h h0 _
    simp at h
    subst h
    simpa using h0
  | succ n ih =>
    intro lo s s' h h0 hstep
    simp only [List.range'_succ, List.foldlM_cons] at h
    cases hb : body lo s with
    | none => simp [hb] at h
    | some t =>
      rw [hb] at h
      have := ih (lo + 1) t s' h (hstep lo s t (le_refl _) (by omega) hb h0)
        (fun i u u' h1 h2 hu hP => hstep i u u' (by omega) (by omega) hu hP)
      have e : lo + 1 + n = lo + (n + 1) := by omega
      rw [← e]
      exact this

/-- The three cases of one iteration of the marking loop, read on the flags
and the run counter. -/
theorem markStep_spec (frame : List ℚ) (u0 : PV_DecorTransExtract) (N i : Nat)
    (st st' : PV_DecorTransExtract × Nat) (hinv : MarkInv u0 N st.1) (hi : i < N)
    (h : markStep frame i st = some st') :
    MarkInv u0 N st'.1 ∧
      ((frame.getD i 0 > u0.alphaVal * calcMinBin u0 i ∧
          st'.1.transFlagBins = st.1.transFlagBins ∧ st'.2 = (st.2 + 1) % 4294967296) ∨
        (¬ frame.getD i 0 > u0.alphaVal * calcMinBin u0 i ∧ u0.dVal ≤ st.2 ∧
          markDown (u32 (((i : Int) - 1) - (st.2 : Int))) i st.1.transFlagBins =
            some st'.1.transFlagBins ∧ st'.2 = 0) ∨
        (¬ frame.getD i 0 > u0.alphaVal * calcMinBin u0 i ∧ st.2 < u0.dVal ∧
          st'.1.transFlagBins = st.1.transFlagBins ∧ st'.2 = 0)) := by
  obtain ⟨h1, h2, h3, h4, h5, h6, h7⟩ := hinv
  have hmin : calcMinBin st.1 i = calcMinBin u0 i := calcMinBin_congr _ _ _ h3 h4 h5
  have hget : (st.1.bigOmegaBins.set i (calcMinBin st.1 i)).getD i 0 = calcMinBin u0 i := by
    rw [List.getD_eq_getElem?_getD, List.getElem?_set, if_pos rfl, if_pos (by omega), hmin]
    rfl
  unfold markStep at h
  simp only [hget, h1, h2] at h
  split at h
  · cases h
    exact ⟨⟨rfl, rfl, h3, h4, h5, by simpa using h6, h7⟩, Or.inl ⟨‹_›, rfl, rfl⟩⟩
  · split at h
    · simp only [Option.map_eq_some'] at h
      obtain ⟨fl, hfl, rfl⟩ := h
      have hl := markDown_length _ _ _ _ hfl
      exact ⟨⟨rfl, rfl, h3, h4, h5, by simpa using h6, by rw [hl]; exact h7⟩,
        Or.inr (Or.inl ⟨‹_›, ‹_›, hfl, rfl⟩)⟩
    · cases h
      exact ⟨⟨rfl, rfl, h3, h4, h5, by simpa using h6, h7⟩,
        Or.inr (Or.inr ⟨‹_›, by omega, rfl, rfl⟩)⟩

/-- The inner marking loop only sets flags, and only below its entry bin. -/
theorem markDown_mono (d : Nat) :
    ∀ (n : Nat) (flags fl : List Bool), markDown d n flags = some fl →
      (∀ k, flags.getD k false = true → fl.getD k false = true) ∧
      (∀ k, fl.getD k false = true → flags.getD k false = true ∨ k < n) := by
  intro n
  induction n with
  | zero =>
    intro flags fl h
    unfold markDown at h
    split at h
    · cases h
    · cases h
      exact ⟨fun k hk => hk, fun k hk => Or.inl hk⟩
  | succ m ih =>
    intro flags fl h
    unfold markDown at h
    split at h
    · split at h
      · obtain ⟨ih1, ih2⟩ := ih _ _ h
        constructor
        · intro k hk
          apply ih1
          by_cases hkm : k = m
          · subst hkm
            simp [List.getD_eq_getElem?_getD, List.getElem?_set, *]
          · simpa [List.getD_eq_getElem?_getD, List.getElem?_set, Ne.symm hkm] using hk
        · intro k hk
          rcases ih2 k hk with h1 | h1
          · by_cases hkm : k = m
            · right; omega
            · left
              simpa [List.getD_eq_getElem?_getD, List.getElem?_set, Ne.symm hkm] using h1
          · right; omega
      · cases h
    · cases h
      exact ⟨fun k hk => hk, fun k hk => Or.inl hk⟩

theorem entering_eq (s : PV_DecorTransExtract) (frame : List ℚ) :
    ∃ pb lo fl, entering s frame =
      { prime s frame.length with prevBins := pb, littleOmegaBins := lo, transFlagBins := fl } := by
  unfold entering resetFlags
  obtain ⟨pb, hs⟩ := storeBins_eq frame (prime s frame.length)
  obtain ⟨lo, ha⟩ := averageBins_eq frame.length (storeBins frame (prime s frame.length))
  rw [ha, hs]
  exact ⟨pb, lo, _, rfl⟩

theorem entering_flags (s : PV_DecorTransExtract) (frame : List ℚ) :
    (entering s frame).transFlagBins = List.replicate (prime s frame.length).numFreqBins false := by
  unfold entering resetFlags memsetBool
  obtain ⟨pb, hs⟩ := storeBins_eq frame (prime s frame.length)
  obtain ⟨lo, ha⟩ := averageBins_eq frame.length (storeBins frame (prime s frame.length))
  rw [ha, hs]
  have : (u8 0 != 0) = false := by decide
  simp only [this]

theorem entering_shaped (s : PV_DecorTransExtract) (frame : List ℚ)
    (h : Shaped (prime s frame.length)) : Shaped (entering s frame) :=
  resetFlags_shaped _ (averageBins_shaped _ _ (storeBins_shaped _ _ h))

theorem entering_markInv (s : PV_DecorTransExtract) (frame : List ℚ)
    (h : Shaped (prime s frame.length)) (hN : (prime s frame.length).numFreqBins = frame.length) :
    MarkInv (entering s frame) frame.length (entering s frame) := by
  obtain ⟨h1, -, h3, -⟩ := entering_shaped s frame h
  obtain ⟨pb, lo, fl, he⟩ := entering_eq s frame
  have hn : (entering s frame).numFreqBins = frame.length := by rw [he]; exact hN
  exact ⟨rfl, rfl, rfl, rfl, rfl, by rw [h3, hn], by rw [h1, hn]⟩

/-- A processed call, seen from the marking loop on. -/
theorem next_marked (s : PV_DecorTransExtract) (frame : List ℚ) (s' : PV_DecorTransExtract)
    (out : List Mag) (hacc : Accepted s frame)
    (h : PV_DecorTransExtract_next s frame = some (s', out)) :
    ∃ m, markTransients frame (entering s frame) = some m ∧
      s'.transFlagBins = m.1.transFlagBins ∧
      s' = advance (shapeBins frame.length m.1 (cutLowBins m.1 (frame.map some))).1 ∧
      out = (shapeBins frame.length m.1 (cutLowBins m.1 (frame.map some))).2 := by
  rw [next_accepted s frame hacc] at h
  obtain ⟨m, hm, hs', hout⟩ := process_some _ _ _ _ h
  refine ⟨m, hm, ?_, hs', hout⟩
  obtain ⟨rb, hrb⟩ := shapeBins_eq frame.length m.1 (cutLowBins m.1 (frame.map some))
  rw [hs', (advance_config _).2.2.2.2.2.2.2.2.2.1, hrb]

/-- An induction principle for the marking loop of a processed call: a
property of bin index, flags and run counter that holds at the cutoff for the
reset flags and is kept by the three cases of an iteration holds at the end. -/
theorem marking_induction (s : PV_DecorTransExtract) (frame : List ℚ)
    (m : PV_DecorTransExtract × Nat)
    (hshape : Shaped (prime s frame.length))
    (hN : (prime s frame.length).numFreqBins = frame.length)
    (hcut : s.lowFreqCutVal ≤ frame.length)
    (hm : markTransients frame (entering s frame) = some m)
    (P : Nat → List Bool → Nat → Prop)
    (h0 : P s.lowFreqCutVal (List.replicate frame.length false) 0)
    (hstep : ∀ i fl r fl' r', s.lowFreqCutVal ≤ i → i < frame.length → fl.length = frame.length →
      P i fl r →
      ((aboveThreshold s frame i ∧ fl' = fl ∧ r' = (r + 1) % 4294967296) ∨
        (¬ aboveThreshold s frame i ∧ s.dVal ≤ r ∧
          markDown (u32 (((i : Int) - 1) - (r : Int))) i fl = some fl' ∧ r' = 0) ∨
        (¬ aboveThreshold s frame i ∧ r < s.dVal ∧ fl' = fl ∧ r' = 0)) →
      P (i + 1) fl' r') :
    P frame.length m.1.transFlagBins m.2 := by
  obtain ⟨pb, lo, fl0, he⟩ := entering_eq s frame
  have hcutE : (entering s frame).lowFreqCutVal = s.lowFreqCutVal := by
    rw [he]; exact (prime_fields s frame.length).2.2.1
  have hdE : (entering s frame).dVal = s.dVal := by
    rw [he]; exact (prime_config s frame.length).2.2.1
  unfold markTransients forLoopM at hm
  rw [hcutE] at hm
  have key := foldlM_range'_inv
    (fun i (st : PV_DecorTransExtract × Nat) =>
      MarkInv (entering s frame) frame.length st.1 ∧ P i st.1.transFlagBins st.2)
    (markStep frame) (frame.length - s.lowFreqCutVal) s.lowFreqCutVal (entering s frame, 0) m hm
    ⟨entering_markInv s frame hshape hN, by
      rw [entering_flags, hN]; exact h0⟩
    (fun i t t' h1 h2 ht hP => by
      obtain ⟨hinv', hcases⟩ := markStep_spec frame (entering s frame) frame.length i t t'
        hP.1 (by omega) ht
      refine ⟨hinv', hstep i t.1.transFlagBins t.2 t'.1.transFlagBins t'.2 h1 (by omega)
        hP.1.2.2.2.2.2.2 hP.2 ?_⟩
      unfold aboveThreshold
      rw [hdE] at hcases
      exact hcases)
  have e : s.lowFreqCutVal + (frame.length - s.lowFreqCutVal) = frame.length := by omega
  rw [e] at key
  exact key.2

/-! ## Runs of bins above the threshold -/

/-- After the marking loop every flagged bin lies below some bin of the loop
range that failed the threshold test. -/
theorem marking_flag_below_closing (s : PV_DecorTransExtract) (frame : List ℚ)
    (m : PV_DecorTransExtract × Nat)
    (hshape : Shaped (prime s frame.length))
    (hN : (prime s frame.length).numFreqBins = frame.length)
    (hcut : s.lowFreqCutVal ≤ frame.length)
    (hm : markTransients frame (entering s frame) = some m) :
    ∀ k, m.1.transFlagBins.getD k false = true →
      ∃ b, s.lowFreqCutVal ≤ b ∧ b < frame.length ∧ ¬ aboveThreshold s frame b ∧ k < b := by
  refine marking_induction s frame m hshape hN hcut hm
    (fun i fl _ => ∀ k, fl.getD k false = true →
      ∃ b, s.lowFreqCutVal ≤ b ∧ b < i ∧ ¬ aboveThreshold s frame b ∧ k < b) ?_ ?_
  · intro k hk
    simp [List.getD_eq_getElem?_getD, List.getElem?_replicate] at hk
    split at hk <;> simp at hk
  · intro i fl r fl' r' h1 h2 _ hP hcases k hk
    rcases hcases with ⟨_, hfl, _⟩ | ⟨hnot, _, hmd, _⟩ | ⟨_, _, hfl, _⟩
    · rw [hfl] at hk
      obtain ⟨b, hb1, hb2, hb3, hb4⟩ := hP k hk
      exact ⟨b, hb1, by omega, hb3, hb4⟩
    · rcases (markDown_mono _ _ _ _ hmd).2 k hk with hold | hlt
      · obtain ⟨b, hb1, hb2, hb3, hb4⟩ := hP k hold
        exact ⟨b, hb1, by omega, hb3, hb4⟩
      · exact ⟨i, h1, by omega, hnot, hlt⟩
    · rw [hfl] at hk
      obtain ⟨b, hb1, hb2, hb3, hb4⟩ := hP k hk
      exact ⟨b, hb1, by omega, hb3, hb4⟩

/-- A run `a, ..., b - 1` of bins above the threshold that starts at bin 2 or
later, begins at the cutoff or after a bin below the threshold, is closed by
the bin `b` below the threshold and has at least `dVal` bins is flagged, bin
by bin, by the marking loop. -/
theorem marking_closed_run (s : PV_DecorTransExtract) (frame : List ℚ)
    (m : PV_DecorTransExtract × Nat)
    (hshape : Shaped (prime s frame.length))
    (hN : (prime s frame.length).numFreqBins = frame.length)
    (hcut : s.lowFreqCutVal ≤ frame.length) (hsize : frame.length < 2147483648)
    (hm : markTransients frame (entering s frame) = some m)
    (a b : Nat) (ha2 : 2 ≤ a) (hca : s.lowFreqCutVal ≤ a) (hab : a ≤ b) (hb : b < frame.length)
    (hstart : a = s.lowFreqCutVal ∨ ¬ aboveThreshold s frame (a - 1))
    (hrun : ∀ k, a ≤ k → k < b → aboveThreshold s frame k)
    (hend : ¬ aboveThreshold s frame b) (hD : s.dVal ≤ b - a) :
    ∀ k, a ≤ k → k < b → m.1.transFlagBins.getD k false = true := by
  have key := marking_induction s frame m hshape hN hcut hm
    (fun i fl r => (a ≤ i → i ≤ b → r = i - a) ∧
      (b < i → ∀ k, a ≤ k → k < b → fl.getD k false = true)) ?_ ?_
  · exact key.2 hb
  · exact ⟨fun h1 _ => by omega, fun h1 => by omega⟩
  · intro i fl r fl' r' h1 h2 hlen hP hcases
    constructor
    · intro h3 h4
      by_cases hia : i + 1 = a
      · have hnot : ¬ aboveThreshold s frame i := by
          rcases hstart with h | h
          · omega
          · have e : a - 1 = i := by omega
            rw [e] at h
            exact h
        rcases hcases with ⟨habove, _, _⟩ | ⟨_, _, _, hr⟩ | ⟨_, _, _, hr⟩
        · exact absurd habove hnot
        · omega
        · omega
      · have hr := hP.1 (by omega) (by omega)
        have habove := hrun i (by omega) (by omega)
        rcases hcases with ⟨_, _, hr'⟩ | ⟨hnot, _, _, _⟩ | ⟨hnot, _, _, _⟩
        · rw [hr', hr, Nat.mod_eq_of_lt (by omega)]
          omega
        · exact absurd habove hnot
        · exact absurd habove hnot
    · intro h3 k hk1 hk2
      by_cases hib : i = b
      · subst hib
        have hr := hP.1 hab (le_refl _)
        rcases hcases with ⟨habove, _, _⟩ | ⟨_, _, hmd, _⟩ | ⟨_, hlt, _, _⟩
        · exact absurd habove hend
        · have hd : u32 (((i : Int) - 1) - (r : Int)) = a - 1 := by
            unfold u32
            omega
          rw [hd] at hmd
          obtain ⟨fl2, hfl2, -, hk⟩ := markDown_flags (a - 1) (by omega) i fl (by omega)
            (by omega) (by omega)
          rw [hfl2] at hmd
          cases hmd
          rw [hk k, if_pos (by omega)]
        · omega
      · have hold := hP.2 (by omega) k hk1 hk2
        rcases hcases with ⟨_, hfl, _⟩ | ⟨_, _, hmd, _⟩ | ⟨_, _, hfl, _⟩
        · rw [hfl]; exact hold
        · exact (markDown_mono _ _ _ _ hmd).1 k hold
        · rw [hfl]; exact hold

/-- C15: a run still open at the last bin.  On every accepted frame of a
reachable engine on which the call completes, if the bins `a, ..., N - 1`
(with `a` at or above the cutoff) are all above the threshold, none of them is
flagged after the marking pass, whatever `dVal` is. -/
theorem C15_open_run_not_flagged (s : PV_DecorTransExtract) (hr : Reachable s)
    (frame : List ℚ) (hacc : Accepted s frame) (s' : PV_DecorTransExtract) (out : List Mag)
    (hnext : PV_DecorTransExtract_next s frame = some (s', out))
    (a : Nat) (_ha : s.lowFreqCutVal ≤ a)
    (hopen : ∀ k, a ≤ k → k < frame.length → aboveThreshold s frame k) :
    ∀ k, a ≤ k → k < frame.length → s'.transFlagBins.getD k false = false := by
  intro k hk1 hk2
  obtain ⟨hshape, hN⟩ := reachableBy_prime_shaped _ s hr frame hacc
  have hcut : s.lowFreqCutVal ≤ frame.length := by
    have := hacc.2
    rw [(prime_fields s frame.length).2.2.1] at this
    exact this
  obtain ⟨m, hm, hflags, -, -⟩ := next_marked s frame s' out hacc hnext
  rw [hflags]
  cases hval : m.1.transFlagBins.getD k false with
  | false => rfl
  | true =>
    obtain ⟨b, hb1, hb2, hb3, hb4⟩ := marking_flag_below_closing s frame m hshape hN hcut hm k hval
    exact absurd (hopen b (by omega) hb2) hb3

/-- C16 (amended): run length 0.  With `dVal = 0`, on every accepted frame of
a reachable engine on which the call completes, every bin of a run of bins
above the threshold that starts at bin 2 or later (at the cutoff or right
after a bin below the threshold) and is closed by a bin below the threshold is
flagged; the bins of a run still open at the last bin are not flagged. -/
theorem C16_run_length_zero (s : PV_DecorTransExtract) (hr : Reachable s)
    (frame : List ℚ) (hacc : Accepted s frame) (hsize : frame.length < 2147483648)
    (hD : s.dVal = 0) (s' : PV_DecorTransExtract) (out : List Mag)
    (hnext : PV_DecorTransExtract_next s frame = some (s', out)) :
    (∀ a b, 2 ≤ a → s.lowFreqCutVal ≤ a → a ≤ b → b < frame.length →
        (a = s.lowFreqCutVal ∨ ¬ aboveThreshold s frame (a - 1)) →
        (∀ k, a ≤ k → k < b → aboveThreshold s frame k) → ¬ aboveThreshold s frame b →
        ∀ k, a ≤ k → k < b → s'.transFlagBins.getD k false = true) ∧
      (∀ a, s.lowFreqCutVal ≤ a →
        (∀ k, a ≤ k → k < frame.length → aboveThreshold s frame k) →
        ∀ k, a ≤ k → k < frame.length → s'.transFlagBins.getD k false = false) := by
  obtain ⟨hshape, hN⟩ := reachableBy_prime_shaped _ s hr frame hacc
  have hcut : s.lowFreqCutVal ≤ frame.length := by
    have := hacc.2
    rw [(prime_fields s frame.length).2.2.1] at this
    exact this
  obtain ⟨m, hm, hflags, -, -⟩ := next_marked s frame s' out hacc hnext
  rw [hflags]
  constructor
  · intro a b ha2 hca hab hb hstart hrun hend k hk1 hk2
    exact marking_closed_run s frame m hshape hN hcut hsize hm a b ha2 hca hab hb hstart hrun
      hend (by omega) k hk1 hk2
  · intro a ha hopen k hk1 hk2
    cases hval : m.1.transFlagBins.getD k false with
    | false => rfl
    | true =>
      obtain ⟨b, hb1, hb2, hb3, hb4⟩ :=
        marking_flag_below_closing s frame m hshape hN hcut hm k hval
      exact absurd (hopen b (by omega) hb2) hb3

/-! ## The marking loop at concrete frames -/

/-- C13 at a failing input: run length 1, cutoff 0, first frame `[0,1,0]`.
The only bin above the threshold is bin 1, a run of exactly `dVal` bins with a
bin below the threshold on either side.  At the closing bin 2 the run counter
is 1 and `diffBins = (2 - 1) - 1 = 0`, the inner loop reaches `j = -1` with its
condition still true, and the call does not complete: the run is not
flagged. -/
theorem C13_run_starting_at_bin_one :
    (¬ aboveThreshold warmup [0, 1, 0] 0 ∧ aboveThreshold warmup [0, 1, 0] 1 ∧
      ¬ aboveThreshold warmup [0, 1, 0] 2) ∧
    u32 (((2 : Int) - 1) - ((1 : Nat) : Int)) = 0 ∧
    markDown 0 2 [false, false, false] = none ∧
    PV_DecorTransExtract_next warmup [0, 1, 0] = none := by
  refine ⟨⟨?_, ?_, ?_⟩, ?_, ?_, ?_⟩ <;> decide!

/-- C14 at a failing input: cutoff 2, run length 1, first frame `[5,5,1,0]`.
The run is bin 2 alone, closed at bin 3; the flagged bins are 1 and 2, and
bin 1 is below the cutoff. -/
theorem C14_bin_below_cutoff_flagged :
    (PV_DecorTransExtract_next (PV_DecorTransExtract_Ctor false 2 2 1 (1/2) 1 2)
        [5, 5, 1, 0]).map (fun r => (r.1.lowFreqCutVal, r.1.transFlagBins)) =
      some (2, [false, true, true, false]) := by
  decide!

/-- C16, counterexample: run length 0, cutoff 2, first frame `[1,1,1,1]`.
Bins 2 and 3 are above the threshold and no bin is flagged. -/
theorem C16_counterexample_open_run :
    zeroRun.dVal = 0 ∧ aboveThreshold zeroRun [1, 1, 1, 1] 2 ∧
    aboveThreshold zeroRun [1, 1, 1, 1] 3 ∧
    (PV_DecorTransExtract_next zeroRun [1, 1, 1, 1]).map (fun r => r.1.transFlagBins) =
      some [false, false, false, false] := by
  refine ⟨?_, ?_, ?_, ?_⟩ <;> decide!

/-- C18 at a failing input: with `diffBins = 0` the inner marking loop never
leaves through its condition, whatever the entry bin and the flags: it
reaches `j = -1` with the condition still true.  On the first frame
`[0,3,0,0]` (two slots each, run length 1, cutoff 0) the closing bin 2 has run
counter 1 and `diffBins = 0`, and the call does not complete. -/
theorem C18_inner_loop_does_not_terminate :
    (∀ (n : Nat) (flags : List Bool), markDown 0 n flags = none) ∧
    u32 (((2 : Int) - 1) - ((1 : Nat) : Int)) = 0 ∧
    u32 (-1) = 4294967295 ∧
    PV_DecorTransExtract_next warmup [0, 3, 0, 0] = none := by
  refine ⟨?_, by decide, by decide, by decide!⟩
  intro n
  induction n with
  | zero =>
    intro flags
    unfold markDown
    rw [if_pos (Nat.zero_le _)]
  | succ m ih =>
    intro flags
    unfold markDown
    rw [if_pos (Nat.zero_le _)]
    split
    · exact ih _
    · rfl

/-- Example of the ring indices: the warm-up engine and its first frame
`[1,1,1,1]`; both
indices go from 0 to 1. -/
theorem ring_indices_of_completed_call_example :
    Reachable warmup ∧ PV_DecorTransExtract_next warmup [1, 1, 1, 1] =
      some (afterWarmup, List.replicate 4 (some (1 / 1000000000))) ∧
    (warmup.prevBinsIdx < warmup.iVal ∧ warmup.littleOmegaIdx < warmup.jVal) ∧
    afterWarmup.prevBinsIdx = (warmup.prevBinsIdx + 1) % warmup.iVal ∧
    afterWarmup.littleOmegaIdx = (warmup.littleOmegaIdx + 1) % warmup.jVal :=
  have h := ring_indices_of_completed_call warmup (ReachableBy.ctor false 2 2 1 (1/2) 1 0)
    (by decide) (by decide) (by decide) (by decide)
  have h2 := (h.2 [1, 1, 1, 1] afterWarmup (List.replicate 4 (some (1 / 1000000000)))
    (by decide!)).1 (by decide!)
  ⟨ReachableBy.ctor false 2 2 1 (1/2) 1 0, by decide!, h.1, h2.1, h2.2⟩

/-- Witness of C15: the warm-up scenario; on the first frame `[1,1,1,1]` every
bin is above the threshold and no bin is flagged. -/
theorem C15_open_run_not_flagged_witness :
    Accepted warmup [1, 1, 1, 1] ∧
    (∀ k, 0 ≤ k → k < 4 → aboveThreshold warmup [1, 1, 1, 1] k) ∧
    ∀ k, 0 ≤ k → k < 4 → afterWarmup.transFlagBins.getD k false = false :=
  have hopen : ∀ k, 0 ≤ k → k < 4 → aboveThreshold warmup [1, 1, 1, 1] k := by
    intro k _ hk
    interval_cases k <;> decide!
  ⟨by decide!, hopen,
    C15_open_run_not_flagged warmup (ReachableBy.ctor false 2 2 1 (1/2) 1 0) [1, 1, 1, 1]
      (by decide!) afterWarmup (List.replicate 4 (some (1 / 1000000000))) (by decide!)
      0 (by decide) hopen⟩

/-- Witness of C16: run length 0, cutoff 2, first frame `[1,1,1,0]`; the run
is bin 2, closed at bin 3, and bin 2 is flagged. -/
theorem C16_run_length_zero_witness :
    Accepted zeroRun [1, 1, 1, 0] ∧ zeroRun.dVal = 0 ∧
    aboveThreshold zeroRun [1, 1, 1, 0] 2 ∧ ¬ aboveThreshold zeroRun [1, 1, 1, 0] 3 ∧
    afterZeroRun.transFlagBins.getD 2 false = true :=
  have hrun : ∀ k, 2 ≤ k → k < 3 → aboveThreshold zeroRun [1, 1, 1, 0] k := by
    intro k h1 h2
    interval_cases k
    decide!
  have h := C16_run_length_zero zeroRun (ReachableBy.ctor false 2 2 1 (1/2) 0 2) [1, 1, 1, 0]
    (by decide!) (by decide) (by decide) afterZeroRun
    [some 1, some 1, some (8454401 / 2 ^ 149), none] (by decide!)
  ⟨by decide!, by decide, by decide!, by decide!,
    h.1 2 3 (by decide) (by decide) (by decide) (by decide) (Or.inl (by decide)) hrun
      (by decide!) 2 (by decide) (by decide)⟩

/-! ## The release value after a call -/

/-- The release value of a bin from the cutoff on after a processed call: the
attack step for a flagged bin, with the average slot at the index the call
started with, and the release step otherwise. -/
theorem release_after_call (s : PV_DecorTransExtract) (frame : List ℚ)
    (s' : PV_DecorTransExtract) (out : List Mag) (k : Nat)
    (hacc : Accepted s frame)
    (hshape : (prime s frame.length).releaseBins.length = frame.length)
    (hrun : PV_DecorTransExtract_next s frame = some (s', out))
    (hlo : s.lowFreqCutVal ≤ k) (hhi : k < frame.length) :
    s'.releaseBins.getD k 0 =
      if s'.transFlagBins.getD k false = true then
        min (s.betaVal * (prime s frame.length).releaseBins.getD k 0)
          (get2 s'.littleOmegaBins s.littleOmegaIdx k)
      else max (s.betaVal * (prime s frame.length).releaseBins.getD k 0) MIN_VAL := by
  rw [next_accepted s frame hacc] at hrun
  obtain ⟨m, hm, hs', -⟩ := process_some _ _ _ _ hrun
  obtain ⟨pb, lo, bo, fl, hm1⟩ := marked_eq _ _ _ hm
  obtain ⟨rb, hrb⟩ := shapeBins_eq frame.length m.1 (cutLowBins m.1 (frame.map some))
  have hadv := advance_config (shapeBins frame.length m.1 (cutLowBins m.1 (frame.map some))).1
  have hpf := prime_fields s frame.length
  have hpc := prime_config s frame.length
  have hflags : s'.transFlagBins = m.1.transFlagBins := by
    rw [hs', hadv.2.2.2.2.2.2.2.2.2.1, hrb]
  have hlom : s'.littleOmegaBins = m.1.littleOmegaBins := by
    rw [hs', hadv.2.2.2.2.2.2.2.2.2.2.2.2.1, hrb]
  have hrel : s'.releaseBins =
      (shapeBins frame.length m.1 (cutLowBins m.1 (frame.map some))).1.releaseBins := by
    rw [hs', hadv.2.2.2.2.2.2.2.2.2.2.1]
  have hcutm : m.1.lowFreqCutVal = s.lowFreqCutVal := by rw [hm1]; exact hpf.2.2.1
  have hbeta : m.1.betaVal = s.betaVal := by rw [hm1]; exact hpf.1
  have hidx : m.1.littleOmegaIdx = s.littleOmegaIdx := by rw [hm1]; exact hpc.2.2.2.2.2
  have hrelm : m.1.releaseBins = (prime s frame.length).releaseBins := by rw [hm1]
  rw [hrel]
  unfold shapeBins forLoop
  rw [gainFold_release, if_pos (by omega)]
  have hk : k < m.1.releaseBins.length := by rw [hrelm, hshape]; exact hhi
  rw [List.getD_eq_getElem?_getD, List.getElem?_set, if_pos rfl, if_pos hk]
  rw [hflags, hlom]
  unfold calcReleaseBin
  have hneg : ¬ ((s.littleOmegaIdx : Int) < 0) := by omega
  simp only [Option.getD_some, hbeta, hrelm, hidx, if_neg hneg, Int.toNat_ofNat]

/-- C17 (amended): the release step.  For every reachable engine, every
accepted frame on which the call completes and every bin from the cutoff on
that is not flagged, the new release value is the larger of `betaVal` times
the previous value and `MIN_VAL`: it does not exceed `betaVal` times the
previous value as long as that product is at least `MIN_VAL`, it is
`MIN_VAL` otherwise, and in both cases it is at least `MIN_VAL`. -/
theorem C17_release_step_bounds (s : PV_DecorTransExtract) (hr : Reachable s)
    (frame : List ℚ) (hacc : Accepted s frame) (s' : PV_DecorTransExtract) (out : List Mag)
    (hnext : PV_DecorTransExtract_next s frame = some (s', out)) (k : Nat)
    (hlo : s.lowFreqCutVal ≤ k) (hhi : k < frame.length)
    (hflag : s'.transFlagBins.getD k false = false) :
    s'.releaseBins.getD k 0 =
        Max.max (s.betaVal * (prime s frame.length).releaseBins.getD k 0) MIN_VAL ∧
      (MIN_VAL ≤ s.betaVal * (prime s frame.length).releaseBins.getD k 0 →
        s'.releaseBins.getD k 0 ≤ s.betaVal * (prime s frame.length).releaseBins.getD k 0) ∧
      (s.betaVal * (prime s frame.length).releaseBins.getD k 0 < MIN_VAL →
        s'.releaseBins.getD k 0 = MIN_VAL) ∧
      MIN_VAL ≤ s'.releaseBins.getD k 0 := by
  obtain ⟨hshape, hN⟩ := reachableBy_prime_shaped _ s hr frame hacc
  have hlen : (prime s frame.length).releaseBins.length = frame.length := by
    rw [hshape.2.1, hN]
  have hval := release_after_call s frame s' out k hacc hlen hnext hlo hhi
  rw [hflag] at hval
  simp only [Bool.false_eq_true, if_false] at hval
  rw [max_eq_max] at hval
  refine ⟨hval, fun h => ?_, fun h => ?_, ?_⟩
  · rw [hval, max_eq_left h]
  · rw [hval, max_eq_right (le_of_lt h)]
  · rw [hval]; exact le_max_right _ _

/-- C17, counterexample: the warm-up engine after its first frame has release
value `10^-9` in bin 0; on the second frame `[1,1,1,1]` bin 0 is not flagged
and its new release value is `10^-9`, above `betaVal` times the previous one,
`10^-9 / 2`.  And in the engine `oneSlot` after the frames `[1,1,10^-10,1]` and
`[1,1,1,1]`, bin 2, above the threshold and flagged, has release value
`10^-9 / 2`, below `MIN_VAL`. -/
theorem C17_counterexample_floor_and_attack :
    (PV_DecorTransExtract_next warmup [1, 1, 1, 1]).map (fun r => r.1) = some afterWarmup ∧
    (PV_DecorTransExtract_next afterWarmup [1, 1, 1, 1]).map
        (fun r => (r.1.transFlagBins.getD 0 false, r.1.releaseBins.getD 0 0)) =
      some (false, 1 / 1000000000) ∧
    afterWarmup.betaVal * afterWarmup.releaseBins.getD 0 0 = 1 / 2000000000 ∧
    ((PV_DecorTransExtract_next oneSlot [1, 1, 1 / 10000000000, 1]).bind
      (fun r => PV_DecorTransExtract_next r.1 [1, 1, 1, 1])).map
        (fun r => (r.1.transFlagBins.getD 2 false, r.1.releaseBins.getD 2 0)) =
      some (true, 1 / 2000000000) ∧
    (1 / 2000000000 : ℚ) < MIN_VAL := by
  refine ⟨?_, ?_, ?_, ?_, ?_⟩ <;> decide!

/-- Witness of C17: the warm-up engine after its first frame, on the second
frame `[1,1,1,1]`; bin 0 is not flagged and gets `MIN_VAL`. -/
theorem C17_release_step_bounds_witness :
    Reachable afterWarmup ∧ Accepted afterWarmup [1, 1, 1, 1] ∧
    (PV_DecorTransExtract_next afterWarmup [1, 1, 1, 1]).map (fun r => r.1) =
      some afterSecond ∧
    afterSecond.releaseBins.getD 0 0 = MIN_VAL ∧ MIN_VAL ≤ afterSecond.releaseBins.getD 0 0 :=
  have hreach : Reachable afterWarmup :=
    ReachableBy.call warmup afterWarmup [1, 1, 1, 1] (List.replicate 4 (some (1 / 1000000000)))
      (ReachableBy.ctor false 2 2 1 (1/2) 1 0) trivial (by decide!)
  have h := C17_release_step_bounds afterWarmup hreach [1, 1, 1, 1] (by decide!) afterSecond
    (List.replicate 4 (some (1 / 1000000000))) (by decide!) 0 (by decide) (by decide)
    (by decide)
  ⟨hreach, by decide!, by decide!, h.2.2.1 (by decide!), h.2.2.2⟩

/-! ## The frame buffer after a call -/

theorem setFold_outside {α : Type} (v : α) (n : Nat) :
    ∀ (lo : Nat) (p : List α) (k : Nat), (k < lo ∨ lo + n ≤ k) →
      ((List.range' lo n).foldl (fun p i => p.set i v) p)[k]? = p[k]? := by
  induction n with
  | zero => intro lo p k _; simp
  | succ n ih =>
    intro lo p k hk
    simp only [List.range'_succ, List.foldl_cons]
    rw [ih (lo + 1) _ k (by omega)]
    have hne : lo ≠ k := by omega
    simp [List.getElem?_set, hne]

theorem setFold_length {α : Type} (v : α) (n : Nat) :
    ∀ (lo : Nat) (p : List α),
      ((List.range' lo n).foldl (fun p i => p.set i v) p).length = p.length := by
  induction n with
  | zero => intro lo p; simp
  | succ n ih =>
    intro lo p
    simp only [List.range'_succ, List.foldl_cons]
    rw [ih (lo + 1) _]
    simp

theorem gainStep_snd_length (i : Nat) (st : PV_DecorTransExtract × List Mag) :
    (gainStep i st).2.length = st.2.length := by
  unfold gainStep
  split <;> simp

theorem gainStep_snd_other (i k : Nat) (st : PV_DecorTransExtract × List Mag) (h : i ≠ k) :
    (gainStep i st).2[k]? = st.2[k]? := by
  unfold gainStep
  split <;> simp [List.getElem?_set, h]

/-- The frame buffer of a bin inside the range of the last loop: the gain of
that bin, computed from its updated release value, times its magnitude. -/
theorem gainFold_buf_inside (n : Nat) :
    ∀ (lo : Nat) (st : PV_DecorTransExtract × List Mag) (k : Nat), lo ≤ k → k < lo + n →
      k < st.2.length →
      ((List.range' lo n).foldl (fun s i => gainStep i s) st).2[k]? =
        some (match st.2.getD k none with
          | some m =>
            (binGain st.1.retTrans
              ((st.1.releaseBins.set k (calcReleaseBin st.1 k)).getD k 0) m).map
                (fun g => g * m)
          | none => none) := by
  induction n with
  | zero => intro lo st k h1 h2; omega
  | succ n ih =>
    intro lo st k h1 h2 h3
    simp only [List.range'_succ, List.foldl_cons]
    by_cases hk : k = lo
    · subst hk
      rw [gainFold_buf_outside n (k + 1) _ k (Or.inl (by omega))]
      unfold gainStep
      split
      · rename_i m hm
        simp only [hm]
        simp [List.getElem?_set, h3]
      · rename_i hm
        simp only [hm]
        simp [List.getElem?_set, h3]
    · rw [ih (lo + 1) (gainStep lo st) k (by omega) (by omega)
        (by rw [gainStep_snd_length]; exact h3)]
      have hbuf : (gainStep lo st).2.getD k none = st.2.getD k none := by
        rw [List.getD_eq_getElem?_getD, List.getD_eq_getElem?_getD,
          gainStep_snd_other lo k st (Ne.symm hk)]
      have hc : calcReleaseBin (gainStep lo st).1 k = calcReleaseBin st.1 k := by
        rw [gainStep_fst]
        apply calcReleaseBin_congr <;>
          simp [List.getD_eq_getElem?_getD, List.getElem?_set, Ne.symm hk]
      have hrel : ((gainStep lo st).1.releaseBins.set k (calcReleaseBin st.1 k)).getD k 0 =
          (st.1.releaseBins.set k (calcReleaseBin st.1 k)).getD k 0 := by
        rw [gainStep_fst]
        simp [List.getD_eq_getElem?_getD, List.getElem?_set]
      have hret : (gainStep lo st).1.retTrans = st.1.retTrans := by
        rw [gainStep_fst]
      rw [hbuf, hc, hrel, hret]

theorem cutLowBins_length (u : PV_DecorTransExtract) (p : List Mag) :
    (cutLowBins u p).length = p.length := by
  unfold cutLowBins
  split
  · unfold forLoop
    exact setFold_length _ _ _ _
  · rfl

theorem cutLowBins_from_cutoff (u : PV_DecorTransExtract) (p : List Mag) (k : Nat)
    (hk : u.lowFreqCutVal ≤ k) : (cutLowBins u p)[k]? = p[k]? := by
  unfold cutLowBins
  split
  · unfold forLoop
    exact setFold_outside _ _ _ _ _ (Or.inr (by omega))
  · rfl

/-- The output of a bin from the cutoff on after a processed call: the gain
computed from the updated release value and the input magnitude, times the
input magnitude. -/
theorem out_from_cutoff (s : PV_DecorTransExtract) (frame : List ℚ)
    (s' : PV_DecorTransExtract) (out : List Mag) (k : Nat)
    (hacc : Accepted s frame)
    (hrun : PV_DecorTransExtract_next s frame = some (s', out))
    (hlo : s.lowFreqCutVal ≤ k) (hhi : k < frame.length) :
    out[k]? = some ((binGain s.retTrans (s'.releaseBins.getD k 0) (frame.getD k 0)).map
      (fun g => g * frame.getD k 0)) := by
  obtain ⟨m, hm, -, hs', hout⟩ := next_marked s frame s' out hacc hrun
  obtain ⟨pb, lo, bo, fl, hm1⟩ := marked_eq _ _ _ hm
  have hadv := advance_config (shapeBins frame.length m.1 (cutLowBins m.1 (frame.map some))).1
  have hpf := prime_fields s frame.length
  have hcutm : m.1.lowFreqCutVal = s.lowFreqCutVal := by rw [hm1]; exact hpf.2.2.1
  have hret : m.1.retTrans = s.retTrans := by rw [hm1]; exact hpf.2.1
  have hrel : s'.releaseBins.getD k 0 =
      (m.1.releaseBins.set k (calcReleaseBin m.1 k)).getD k 0 := by
    rw [hs', hadv.2.2.2.2.2.2.2.2.2.2.1]
    unfold shapeBins forLoop
    rw [gainFold_release, if_pos (by omega)]
  have hbuf : (cutLowBins m.1 (frame.map some)).getD k none = some (frame.getD k 0) := by
    rw [List.getD_eq_getElem?_getD, cutLowBins_from_cutoff _ _ _ (by omega)]
    simp [List.getD_eq_getElem?_getD, List.getElem?_eq_getElem hhi]
  rw [hout]
  unfold shapeBins forLoop
  rw [gainFold_buf_inside _ _ _ k (by omega) (by omega)
    (by rw [cutLowBins_length]; simpa using hhi)]
  simp only [hbuf, hret, hrel]

/-- The output of a bin below the cutoff after a processed call. -/
theorem out_below_cutoff (s : PV_DecorTransExtract) (frame : List ℚ)
    (s' : PV_DecorTransExtract) (out : List Mag) (k : Nat)
    (hacc : Accepted s frame)
    (hrun : PV_DecorTransExtract_next s frame = some (s', out))
    (hk : k < s.lowFreqCutVal) :
    out[k]? = some (some (if s.retTrans = true then 0 else frame.getD k 0)) := by
  have hpf := prime_fields s frame.length
  have hkN : k < frame.length := by
    have := hacc.2
    rw [hpf.2.2.1] at this
    omega
  obtain ⟨m, hm, -, -, hout⟩ := next_marked s frame s' out hacc hrun
  obtain ⟨pb, lo, bo, fl, hm1⟩ := marked_eq _ _ _ hm
  have hcutm : m.1.lowFreqCutVal = s.lowFreqCutVal := by rw [hm1]; exact hpf.2.2.1
  have hret : m.1.retTrans = s.retTrans := by rw [hm1]; exact hpf.2.1
  rw [hout]
  unfold shapeBins forLoop
  rw [gainFold_buf_outside _ _ _ _ (Or.inl (by omega))]
  unfold cutLowBins
  rw [hret, hcutm]
  split
  · unfold forLoop
    rw [setFold_inside _ _ _ _ _ (Nat.zero_le _) (by omega) (by simpa using hkN)]
  · simp [List.getD_eq_getElem?_getD, List.getElem?_eq_getElem hkN]

theorem min_eq_min (a b : ℚ) : min a b = Min.min a b := by
  unfold min
  split
  · exact (min_eq_left (le_of_lt ‹a < b›)).symm
  · exact (min_eq_right (not_lt.mp ‹¬ a < b›)).symm

/-! ## The two modes on the same engine -/

theorem forLoop_map {σ τ : Type} (g : σ → τ) (body : Nat → σ → σ) (body' : Nat → τ → τ)
    (h : ∀ i t, g (body i t) = body' i (g t)) (lo hi : Nat) (s : σ) :
    g (forLoop lo hi body s) = forLoop lo hi body' (g s) := by
  unfold forLoop
  generalize List.range' lo (hi - lo) = l
  induction l generalizing s with
  | nil => rfl
  | cons a l ih =>
    simp only [List.foldl_cons]
    rw [ih (body a s), h]

theorem foldlM_map {σ τ : Type} (g : σ → τ) (body : Nat → σ → Option σ)
    (body' : Nat → τ → Option τ) (h : ∀ i t, (body i t).map g = body' i (g t)) :
    ∀ (l : List Nat) (s : σ),
      (l.foldlM (fun s i => body i s) s).map g = l.foldlM (fun s i => body' i s) (g s) := by
  intro l
  induction l with
  | nil => intro s; rfl
  | cons a l ih =>
    intro s
    simp only [List.foldlM_cons]
    have ha := h a s
    cases hb : body a s with
    | none =>
      rw [hb] at ha
      simp only [Option.map_none'] at ha
      rw [← ha]
      rfl
    | some t =>
      rw [hb] at ha
      simp only [Option.map_some'] at ha
      rw [← ha]
      exact ih t

theorem storeBins_withMode (b : Bool) (frame : List ℚ) (u : PV_DecorTransExtract) :
    storeBins frame (withMode b u) = withMode b (storeBins frame u) := by
  unfold storeBins
  exact (forLoop_map (withMode b)
    (fun i u => { u with prevBins := set2 u.prevBins u.prevBinsIdx i (frame.getD i 0) })
    (fun i u => { u with prevBins := set2 u.prevBins u.prevBinsIdx i (frame.getD i 0) })
    (fun i t => rfl) u.lowFreqCutVal frame.length u).symm

theorem averageBins_withMode (b : Bool) (n : Nat) (u : PV_DecorTransExtract) :
    averageBins n (withMode b u) = withMode b (averageBins n u) := by
  unfold averageBins
  exact (forLoop_map (withMode b)
    (fun j u => { u with
      littleOmegaBins := set2 u.littleOmegaBins u.littleOmegaIdx j (calcAverageBins u j) })
    (fun j u => { u with
      littleOmegaBins := set2 u.littleOmegaBins u.littleOmegaIdx j (calcAverageBins u j) })
    (fun i t => rfl) u.lowFreqCutVal n u).symm

theorem markStep_withMode (b : Bool) (frame : List ℚ) (i : Nat)
    (st : PV_DecorTransExtract × Nat) :
    (markStep frame i st).map (fun t => (withMode b t.1, t.2)) =
      markStep frame i (withMode b st.1, st.2) := by
  unfold markStep
  simp only []
  by_cases h1 : frame.getD i 0 >
      st.1.alphaVal * (st.1.bigOmegaBins.set i (calcMinBin st.1 i)).getD i 0
  · have h1' : frame.getD i 0 > (withMode b st.1).alphaVal *
        ((withMode b st.1).bigOmegaBins.set i (calcMinBin (withMode b st.1) i)).getD i 0 := h1
    rw [if_pos h1, if_pos h1']
    rfl
  · have h1' : ¬ frame.getD i 0 > (withMode b st.1).alphaVal *
        ((withMode b st.1).bigOmegaBins.set i (calcMinBin (withMode b st.1) i)).getD i 0 := h1
    rw [if_neg h1, if_neg h1']
    by_cases h2 : st.2 ≥ st.1.dVal
    · have h2' : st.2 ≥ (withMode b st.1).dVal := h2
      rw [if_pos h2, if_pos h2']
      have e : (withMode b st.1).transFlagBins = st.1.transFlagBins := rfl
      rw [e]
      cases markDown (u32 (((i : Int) - 1) - (st.2 : Int))) i st.1.transFlagBins <;> rfl
    · have h2' : ¬ st.2 ≥ (withMode b st.1).dVal := h2
      rw [if_neg h2, if_neg h2']
      rfl

theorem markTransients_withMode (b : Bool) (frame : List ℚ) (u : PV_DecorTransExtract) :
    markTransients frame (withMode b u) =
      (markTransients frame u).map (fun t => (withMode b t.1, t.2)) := by
  unfold markTransients forLoopM
  exact (foldlM_map (fun t : PV_DecorTransExtract × Nat => (withMode b t.1, t.2))
    (markStep frame) (markStep frame) (markStep_withMode b frame)
    (List.range' u.lowFreqCutVal (frame.length - u.lowFreqCutVal)) (u, 0)).symm

theorem shapeBins_withMode (b : Bool) (n : Nat) (u : PV_DecorTransExtract) (p q : List Mag) :
    (shapeBins n (withMode b u) p).1 = withMode b (shapeBins n u q).1 := by
  unfold shapeBins
  have e1 : ∀ (lo hi : Nat) (s : PV_DecorTransExtract × List Mag),
      (forLoop lo hi gainStep s).1 =
        forLoop lo hi (fun (i : Nat) (t : PV_DecorTransExtract) =>
          { t with releaseBins := t.releaseBins.set i (calcReleaseBin t i) }) s.1 :=
    fun lo hi s => forLoop_map (fun st : PV_DecorTransExtract × List Mag => st.1) gainStep
      (fun (i : Nat) (t : PV_DecorTransExtract) =>
        { t with releaseBins := t.releaseBins.set i (calcReleaseBin t i) })
      (fun i t => gainStep_fst i t) lo hi s
  rw [e1, e1]
  exact (forLoop_map (withMode b)
    (fun (i : Nat) (t : PV_DecorTransExtract) =>
      { t with releaseBins := t.releaseBins.set i (calcReleaseBin t i) })
    (fun (i : Nat) (t : PV_DecorTransExtract) =>
      { t with releaseBins := t.releaseBins.set i (calcReleaseBin t i) })
    (fun i t => rfl) u.lowFreqCutVal n u).symm

theorem advance_withMode (b : Bool) (u : PV_DecorTransExtract) :
    advance (withMode b u) = withMode b (advance u) := by
  unfold advance
  simp only []
  by_cases h1 : u.prevBinsIdx < u32 ((u.iVal : Int) - 1) <;>
    by_cases h2 : u.littleOmegaIdx < u32 ((u.jVal : Int) - 1) <;>
    simp [withMode, h1, h2]

theorem prime_withMode (b : Bool) (s : PV_DecorTransExtract) (n : Nat) :
    prime (withMode b s) n = withMode b (prime s n) := by
  unfold prime
  cases h : s.initFirstCalc <;> simp [withMode, h, firstCalc]

theorem process_withMode (b : Bool) (u : PV_DecorTransExtract) (frame : List ℚ) :
    (process (withMode b u) frame).map (fun r => r.1) =
      (process u frame).map (fun r => withMode b r.1) := by
  unfold process
  simp only [storeBins_withMode, averageBins_withMode]
  have e : resetFlags (withMode b (averageBins frame.length (storeBins frame u))) =
      withMode b (resetFlags (averageBins frame.length (storeBins frame u))) := rfl
  rw [e, markTransients_withMode]
  cases markTransients frame (resetFlags (averageBins frame.length (storeBins frame u))) with
  | none => rfl
  | some m =>
    simp only [Option.map_some', Option.some.injEq]
    rw [shapeBins_withMode b frame.length m.1 _ (cutLowBins m.1 (frame.map some)),
      advance_withMode]

/-- The engine a call leaves does not depend on the mode, the mode field
apart. -/
theorem next_withMode (b : Bool) (s : PV_DecorTransExtract) (frame : List ℚ) :
    (PV_DecorTransExtract_next (withMode b s) frame).map (fun r => r.1) =
      (PV_DecorTransExtract_next s frame).map (fun r => withMode b r.1) := by
  unfold PV_DecorTransExtract_next
  simp only [prime_withMode]
  by_cases h1 : (prime s frame.length).numFreqBins ≠ frame.length
  · have h1' : (withMode b (prime s frame.length)).numFreqBins ≠ frame.length := h1
    rw [if_pos h1, if_pos h1']
    rfl
  · have h1' : ¬ (withMode b (prime s frame.length)).numFreqBins ≠ frame.length := h1
    rw [if_neg h1, if_neg h1']
    by_cases h2 : (prime s frame.length).lowFreqCutVal > (prime s frame.length).numFreqBins
    · have h2' : (withMode b (prime s frame.length)).lowFreqCutVal >
          (withMode b (prime s frame.length)).numFreqBins := h2
      rw [if_pos h2, if_pos h2']
      rfl
    · have h2' : ¬ (withMode b (prime s frame.length)).lowFreqCutVal >
          (withMode b (prime s frame.length)).numFreqBins := h2
      rw [if_neg h2, if_neg h2']
      exact process_withMode b _ frame

/-! ## Closed form of the output -/

theorem accepted_withMode (b : Bool) (s : PV_DecorTransExtract) (frame : List ℚ)
    (h : Accepted s frame) : Accepted (withMode b s) frame := by
  unfold Accepted
  rw [prime_withMode]
  exact h

/-- For a bin from the cutoff on with non-zero input magnitude `m` and updated
release value `e`, the output is `min e m` in residual mode and `m - min e m`
in extract mode. -/
theorem out_closed_form (s : PV_DecorTransExtract) (frame : List ℚ)
    (s' : PV_DecorTransExtract) (out : List Mag) (k : Nat)
    (hacc : Accepted s frame)
    (hrun : PV_DecorTransExtract_next s frame = some (s', out))
    (hlo : s.lowFreqCutVal ≤ k) (hhi : k < frame.length) (hm : frame.getD k 0 ≠ 0) :
    out[k]? = some (some (if s.retTrans = true then
        frame.getD k 0 - Min.min (s'.releaseBins.getD k 0) (frame.getD k 0)
      else Min.min (s'.releaseBins.getD k 0) (frame.getD k 0))) := by
  rw [out_from_cutoff s frame s' out k hacc hrun hlo hhi]
  unfold binGain
  simp only [hm, if_false, min_eq_min]
  cases s.retTrans with
  | false =>
    simp only [Bool.false_eq_true, if_false, Option.map_some']
    rw [div_mul_cancel₀ _ hm]
  | true =>
    simp only [if_true, Option.map_some']
    rw [sub_mul, one_mul, div_mul_cancel₀ _ hm]

/-- The two modes run on the same engine and frame leave the same release
values. -/
theorem two_modes_release (s : PV_DecorTransExtract) (frame : List ℚ)
    (sE sR : PV_DecorTransExtract) (outE outR : List Mag)
    (hE : PV_DecorTransExtract_next (withMode true s) frame = some (sE, outE))
    (hR : PV_DecorTransExtract_next (withMode false s) frame = some (sR, outR)) :
    sR = withMode false sE := by
  have h1 := next_withMode true s frame
  have h2 := next_withMode false s frame
  rw [hE] at h1
  rw [hR] at h2
  cases hn : PV_DecorTransExtract_next s frame with
  | none =>
    rw [hn] at h1
    simp at h1
  | some r =>
    rw [hn] at h1 h2
    simp only [Option.map_some', Option.some.injEq] at h1 h2
    rw [h1, h2]
    rfl

/-- Closed form of the output of a call that completes, in exact arithmetic.
For every accepted
frame on which the call completes and every bin `k` from the cutoff on with
input magnitude `m` other than 0, with `e` the release value of the bin after
the call, the output magnitude is `min e m` in residual mode and `m - min e m`
in extract mode; and when the call is run in both modes on the same engine the
release values agree and the two outputs of the bin add up to `m`. -/
theorem closed_form_of_completed_call (s : PV_DecorTransExtract) (frame : List ℚ)
    (hacc : Accepted s frame) (k : Nat) (hlo : s.lowFreqCutVal ≤ k) (hhi : k < frame.length)
    (hm : frame.getD k 0 ≠ 0) :
    (∀ (s' : PV_DecorTransExtract) (out : List Mag),
      PV_DecorTransExtract_next s frame = some (s', out) →
      out[k]? = some (some (if s.retTrans = true then
          frame.getD k 0 - Min.min (s'.releaseBins.getD k 0) (frame.getD k 0)
        else Min.min (s'.releaseBins.getD k 0) (frame.getD k 0)))) ∧
    (∀ (sE sR : PV_DecorTransExtract) (outE outR : List Mag),
      PV_DecorTransExtract_next (withMode true s) frame = some (sE, outE) →
      PV_DecorTransExtract_next (withMode false s) frame = some (sR, outR) →
      sE.releaseBins = sR.releaseBins ∧
      ∃ oE oR, outE[k]? = some (some oE) ∧ outR[k]? = some (some oR) ∧
        oE + oR = frame.getD k 0) := by
  refine ⟨fun s' out hrun => out_closed_form s frame s' out k hacc hrun hlo hhi hm, ?_⟩
  intro sE sR outE outR hE hR
  have hrel : sE.releaseBins = sR.releaseBins := by
    rw [two_modes_release s frame sE sR outE outR hE hR]
    rfl
  have h1 := out_closed_form (withMode true s) frame sE outE k (accepted_withMode true s frame hacc)
    hE hlo hhi hm
  have h2 := out_closed_form (withMode false s) frame sR outR k
    (accepted_withMode false s frame hacc) hR hlo hhi hm
  have e1 : (withMode true s).retTrans = true := rfl
  have e2 : (withMode false s).retTrans = false := rfl
  simp only [e1, if_true] at h1
  simp only [e2, Bool.false_eq_true, if_false] at h2
  refine ⟨hrel, _, _, h1, h2, ?_⟩
  rw [hrel]
  ring

/-- Example of the closed form: the warm-up engine on its first frame
`[1,1,1,1]`, bin 0:
the updated release value is `10^-9`, the residual output `10^-9` and the
extract output `1 - 10^-9`. -/
theorem closed_form_of_completed_call_example :
    Accepted warmup [1, 1, 1, 1] ∧
    PV_DecorTransExtract_next (withMode true warmup) [1, 1, 1, 1] =
      some (withMode true afterWarmup, List.replicate 4 (some (999999999 / 1000000000))) ∧
    PV_DecorTransExtract_next (withMode false warmup) [1, 1, 1, 1] =
      some (afterWarmup, List.replicate 4 (some (1 / 1000000000))) ∧
    (List.replicate 4 (some (1 / 1000000000)) : List Mag)[0]? =
      some (some (Min.min (afterWarmup.releaseBins.getD 0 0) 1)) ∧
    ∃ oE oR, (List.replicate 4 (some (999999999 / 1000000000)) : List Mag)[0]? =
        some (some oE) ∧
      (List.replicate 4 (some (1 / 1000000000)) : List Mag)[0]? = some (some oR) ∧
      oE + oR = 1 :=
  have h := closed_form_of_completed_call warmup [1, 1, 1, 1] (by decide!) 0 (by decide)
    (by decide) (by decide!)
  ⟨by decide!, by decide!, by decide!,
    h.1 afterWarmup (List.replicate 4 (some (1 / 1000000000))) (by decide!),
    (h.2 (withMode true afterWarmup) afterWarmup
      (List.replicate 4 (some (999999999 / 1000000000)))
      (List.replicate 4 (some (1 / 1000000000))) (by decide!) (by decide!)).2⟩

/-! ## Non-negative magnitudes -/

theorem getD_nonneg (l : List ℚ) (k : Nat) (h : ∀ x ∈ l, 0 ≤ x) : 0 ≤ l.getD k 0 := by
  by_cases hk : k < l.length
  · rw [List.getD_eq_getElem?_getD, List.getElem?_eq_getElem hk]
    exact h _ (List.getElem_mem hk)
  · rw [List.getD_eq_getElem?_getD, List.getElem?_eq_none (by omega)]
    exact le_refl _

theorem get2_nonneg (a : List (List ℚ)) (i k : Nat) (h : ∀ row ∈ a, ∀ x ∈ row, 0 ≤ x) :
    0 ≤ get2 a i k := by
  unfold get2
  apply getD_nonneg
  by_cases hi : i < a.length
  · rw [List.getD_eq_getElem?_getD, List.getElem?_eq_getElem hi]
    exact h _ (List.getElem_mem hi)
  · rw [List.getD_eq_getElem?_getD, List.getElem?_eq_none (by omega)]
    intro x hx
    simp at hx

theorem set_nonneg (l : List ℚ) (i : Nat) (v : ℚ) (h : ∀ x ∈ l, 0 ≤ x) (hv : 0 ≤ v) :
    ∀ x ∈ l.set i v, 0 ≤ x := by
  intro x hx
  rcases List.mem_or_eq_of_mem_set hx with hmem | heq
  · exact h x hmem
  · rw [heq]; exact hv

theorem set2_nonneg (a : List (List ℚ)) (r c : Nat) (v : ℚ)
    (h : ∀ row ∈ a, ∀ x ∈ row, 0 ≤ x) (hv : 0 ≤ v) :
    ∀ row ∈ set2 a r c v, ∀ x ∈ row, 0 ≤ x := by
  intro row hrow
  unfold set2 at hrow
  rcases List.mem_or_eq_of_mem_set hrow with hmem | heq
  · exact h row hmem
  · rw [heq]
    apply set_nonneg _ _ _ _ hv
    intro x hx
    have := get2_nonneg a r 0 h
    by_cases hr : r < a.length
    · rw [List.getD_eq_getElem?_getD, List.getElem?_eq_getElem hr] at hx
      exact h _ (List.getElem_mem hr) x hx
    · rw [List.getD_eq_getElem?_getD, List.getElem?_eq_none (by omega)] at hx
      simp at hx

theorem prime_nonneg (s : PV_DecorTransExtract) (n : Nat) (h : NonNeg s) :
    NonNeg (prime s n) := by
  unfold prime
  split
  · have h0 : float32OfBits (16843009 * u8 0) = 0 := by decide!
    have h1 : float32OfBits (16843009 * u8 1) = 8454401 / 2 ^ 148 := by decide!
    unfold NonNeg firstCalc memsetFloat
    simp only [h0, h1]
    refine ⟨?_, ?_, ?_⟩
    · intro x hx
      rw [(List.mem_replicate.mp hx).2]
      norm_num
    · intro row hrow x hx
      rw [(List.mem_replicate.mp hrow).2] at hx
      rw [(List.mem_replicate.mp hx).2]
    · intro row hrow x hx
      rw [(List.mem_replicate.mp hrow).2] at hx
      rw [(List.mem_replicate.mp hx).2]
  · exact h

theorem storeBins_nonneg (frame : List ℚ) (u : PV_DecorTransExtract)
    (hf : ∀ x ∈ frame, 0 ≤ x) (h : NonNeg u) : NonNeg (storeBins frame u) := by
  unfold storeBins
  refine forLoop_inv NonNeg _ _ _ u h ?_
  rintro i t ⟨h1, h2, h3⟩
  exact ⟨h1, h2, set2_nonneg _ _ _ _ h3 (getD_nonneg frame i hf)⟩

theorem calcAverageBins_nonneg (u : PV_DecorTransExtract) (k : Nat) (h : NonNeg u) :
    0 ≤ calcAverageBins u k := by
  unfold calcAverageBins
  apply div_nonneg
  · refine forLoop_inv (fun acc : ℚ => 0 ≤ acc) _ _ _ 0 (le_refl _) ?_
    intro i acc hacc
    exact add_nonneg hacc (get2_nonneg _ _ _ h.2.2)
  · exact Nat.cast_nonneg _

theorem averageBins_nonneg (n : Nat) (u : PV_DecorTransExtract) (h : NonNeg u) :
    NonNeg (averageBins n u) := by
  unfold averageBins
  refine forLoop_inv NonNeg _ _ _ u h ?_
  intro i t ht
  exact ⟨ht.1, set2_nonneg _ _ _ _ ht.2.1 (calcAverageBins_nonneg t i ht), ht.2.2⟩

theorem calcReleaseBin_nonneg (u : PV_DecorTransExtract) (k : Nat) (hb : 0 ≤ u.betaVal)
    (h : NonNeg u) : 0 ≤ calcReleaseBin u k := by
  have hw : 0 ≤ u.betaVal * u.releaseBins.getD k 0 :=
    mul_nonneg hb (getD_nonneg _ _ h.1)
  unfold calcReleaseBin
  simp only []
  split
  · rw [min_eq_min]
    exact le_min hw (get2_nonneg _ _ _ h.2.1)
  · rw [max_eq_max]
    exact le_trans (le_of_lt MIN_VAL_pos) (le_max_right _ _)

theorem shapeBins_nonneg (n : Nat) (u : PV_DecorTransExtract) (p : List Mag)
    (hb : 0 ≤ u.betaVal) (h : NonNeg u) : NonNeg (shapeBins n u p).1 := by
  unfold shapeBins
  refine (forLoop_inv (fun t : PV_DecorTransExtract × List Mag =>
    NonNeg t.1 ∧ t.1.betaVal = u.betaVal) _ _ _ (u, p) ⟨h, rfl⟩ ?_).1
  rintro i t ⟨⟨h1, h2, h3⟩, hbt⟩
  rw [gainStep_fst]
  exact ⟨⟨set_nonneg _ _ _ h1 (calcReleaseBin_nonneg t.1 i (by rw [hbt]; exact hb) ⟨h1, h2, h3⟩),
    h2, h3⟩, hbt⟩

theorem process_nonneg (u : PV_DecorTransExtract) (frame : List ℚ) (s' : PV_DecorTransExtract)
    (out : List Mag) (h : process u frame = some (s', out)) (hf : ∀ x ∈ frame, 0 ≤ x)
    (hb : 0 ≤ u.betaVal) (hu : NonNeg u) : NonNeg s' := by
  obtain ⟨m, hm, hs', -⟩ := process_some u frame s' out h
  obtain ⟨bo, fl, hm1⟩ := markTransients_eq _ _ _ hm
  have hE : NonNeg (resetFlags (averageBins frame.length (storeBins frame u))) :=
    averageBins_nonneg _ _ (storeBins_nonneg _ _ hf hu)
  have hbE : (resetFlags (averageBins frame.length (storeBins frame u))).betaVal = u.betaVal := by
    obtain ⟨pb, hs⟩ := storeBins_eq frame u
    obtain ⟨lo, ha⟩ := averageBins_eq frame.length (storeBins frame u)
    rw [ha, hs]
    rfl
  have hM : NonNeg m.1 := by rw [hm1]; exact hE
  have hbM : m.1.betaVal = u.betaVal := by rw [hm1]; exact hbE
  have hS := shapeBins_nonneg frame.length m.1 (cutLowBins m.1 (frame.map some))
    (by rw [hbM]; exact hb) hM
  obtain ⟨a, b, hadv⟩ := advance_eq (shapeBins frame.length m.1 (cutLowBins m.1 (frame.map some))).1
  rw [hs', hadv]
  exact hS

theorem next_nonneg (s : PV_DecorTransExtract) (frame : List ℚ) (s' : PV_DecorTransExtract)
    (out : List Mag) (h : PV_DecorTransExtract_next s frame = some (s', out))
    (hf : ∀ x ∈ frame, 0 ≤ x) (hb : 0 ≤ s.betaVal) (hs : NonNeg s) :
    NonNeg s' ∧ s'.betaVal = s.betaVal := by
  have hp := prime_nonneg s frame.length hs
  have hpb := (prime_fields s frame.length).1
  unfold PV_DecorTransExtract_next at h
  simp only [] at h
  split at h
  · cases h; exact ⟨hp, hpb⟩
  · split at h
    · cases h; exact ⟨hp, hpb⟩
    · refine ⟨process_nonneg _ _ _ _ h hf (by rw [hpb]; exact hb) hp, ?_⟩
      obtain ⟨pb, lo, bo, fl, rb, hs'⟩ := process_result _ _ _ _ h
      rw [hs', (advance_config _).2.2.2.2.1]
      exact hpb

theorem reachable_nonneg (s : PV_DecorTransExtract)
    (hr : ReachableBy (fun f => ∀ x ∈ f, 0 ≤ x) s) (hb : 0 ≤ s.betaVal) : NonNeg s := by
  induction hr with
  | ctor retTrans iVal jVal alphaVal betaVal dVal lowFreqCutVal =>
    refine ⟨?_, ?_, ?_⟩ <;> intro x hx <;> simp [PV_DecorTransExtract_Ctor] at hx
  | call s s' frame out hprev hf hnext ih =>
    have hbs : s'.betaVal = s.betaVal := by
      have hpb := (prime_fields s frame.length).1
      unfold PV_DecorTransExtract_next at hnext
      simp only [] at hnext
      split at hnext
      · cases hnext; exact hpb
      · split at hnext
        · cases hnext; exact hpb
        · obtain ⟨pb, lo, bo, fl, rb, hs'⟩ := process_result _ _ _ _ hnext
          rw [hs', (advance_config _).2.2.2.2.1]
          exact hpb
    rw [hbs] at hb
    exact (next_nonneg s frame s' out hnext hf hb (ih hb)).1

/-- C20: the output never exceeds the input.  With `betaVal > 0` and all
input magnitudes non-negative, in every reachable engine every release value
and every stored average is non-negative; and for every accepted frame on
which the call completes and every bin of non-zero input magnitude `m`, the
gain of a bin from the cutoff on lies in `[0, 1]` and the output magnitude `o`
of the bin satisfies `0 <= o <= m`, in both modes. -/
theorem C20_output_never_exceeds_input (s : PV_DecorTransExtract)
    (hr : ReachableBy (fun f => ∀ x ∈ f, 0 ≤ x) s) (hbeta : 0 < s.betaVal) :
    (∀ k, 0 ≤ s.releaseBins.getD k 0) ∧ (∀ j k, 0 ≤ get2 s.littleOmegaBins j k) ∧
    ∀ (frame : List ℚ), (∀ x ∈ frame, 0 ≤ x) → Accepted s frame →
      ∀ (s' : PV_DecorTransExtract) (out : List Mag),
        PV_DecorTransExtract_next s frame = some (s', out) →
        ∀ k, k < frame.length → frame.getD k 0 ≠ 0 →
          (s.lowFreqCutVal ≤ k →
            ∃ g, binGain s.retTrans (s'.releaseBins.getD k 0) (frame.getD k 0) = some g ∧
              0 ≤ g ∧ g ≤ 1) ∧
          ∃ o, out[k]? = some (some o) ∧ 0 ≤ o ∧ o ≤ frame.getD k 0 := by
  have hs := reachable_nonneg s hr (le_of_lt hbeta)
  refine ⟨fun k => getD_nonneg _ _ hs.1, fun j k => get2_nonneg _ _ _ hs.2.1, ?_⟩
  intro frame hf hacc s' out hnext k hk hm
  have hs' := (next_nonneg s frame s' out hnext hf (le_of_lt hbeta) hs).1
  have he : 0 ≤ s'.releaseBins.getD k 0 := getD_nonneg _ _ hs'.1
  have hm0 : 0 ≤ frame.getD k 0 := getD_nonneg _ _ hf
  have hmpos : 0 < frame.getD k 0 := lt_of_le_of_ne hm0 (Ne.symm hm)
  have hmin0 : 0 ≤ Min.min (s'.releaseBins.getD k 0) (frame.getD k 0) := le_min he hm0
  have hminm : Min.min (s'.releaseBins.getD k 0) (frame.getD k 0) ≤ frame.getD k 0 :=
    min_le_right _ _
  have hq0 : 0 ≤ Min.min (s'.releaseBins.getD k 0) (frame.getD k 0) / frame.getD k 0 :=
    div_nonneg hmin0 hm0
  have hq1 : Min.min (s'.releaseBins.getD k 0) (frame.getD k 0) / frame.getD k 0 ≤ 1 :=
    (div_le_one hmpos).mpr hminm
  constructor
  · intro _
    unfold binGain
    simp only [hm, if_false, min_eq_min]
    cases s.retTrans with
    | false => exact ⟨_, rfl, hq0, hq1⟩
    | true => exact ⟨_, rfl, by simp only []; linarith, by simp only []; linarith⟩
  · by_cases hlo : s.lowFreqCutVal ≤ k
    · refine ⟨_, out_closed_form s frame s' out k hacc hnext hlo hk hm, ?_, ?_⟩
      · split
        · linarith
        · exact hmin0
      · split
        · linarith
        · exact hminm
    · refine ⟨_, out_below_cutoff s frame s' out k hacc hnext (by omega), ?_, ?_⟩
      · split
        · exact le_refl _
        · exact hm0
      · split
        · exact hm0
        · exact le_refl _

/-- Witness of C20: the warm-up engine on its first frame `[1,1,1,1]`, bin 0:
gain `10^-9` and output `10^-9`, between 0 and the input 1. -/
theorem C20_output_never_exceeds_input_witness :
    0 < warmup.betaVal ∧ (∀ x ∈ ([1, 1, 1, 1] : List ℚ), 0 ≤ x) ∧
    Accepted warmup [1, 1, 1, 1] ∧
    (∃ g, binGain warmup.retTrans (afterWarmup.releaseBins.getD 0 0) 1 = some g ∧
      0 ≤ g ∧ g ≤ 1) ∧
    ∃ o, (List.replicate 4 (some (1 / 1000000000)) : List Mag)[0]? = some (some o) ∧
      0 ≤ o ∧ o ≤ 1 :=
  have hf : ∀ x ∈ ([1, 1, 1, 1] : List ℚ), 0 ≤ x := by decide!
  have h := (C20_output_never_exceeds_input warmup (ReachableBy.ctor false 2 2 1 (1/2) 1 0)
    (by decide!)).2.2 [1, 1, 1, 1] hf (by decide!) afterWarmup
    (List.replicate 4 (some (1 / 1000000000))) (by decide!) 0 (by decide) (by decide!)
  ⟨by decide!, hf, by decide!, h.1 (by decide), h.2⟩

/-! ## The two histories after a call -/

theorem foldl_range'_inv {σ : Type} (P : Nat → σ → Prop) (body : Nat → σ → σ) :
    ∀ (n lo : Nat) (s : σ), P lo s →
      (∀ i t, lo ≤ i → i < lo + n → P i t → P (i + 1) (body i t)) →
      P (lo + n) ((List.range' lo n).foldl (fun s i => body i s) s) := by
  intro n
  induction n with
  | zero => intro lo s h0 _; simpa using h0
  | succ n ih =>
    intro lo s h0 hstep
    simp only [List.range'_succ, List.foldl_cons]
    have := ih (lo + 1) (body lo s) (hstep lo s (le_refl _) (by omega) h0)
      (fun i t h1 h2 hP => hstep i t (by omega) (by omega) hP)
    have e : lo + 1 + n = lo + (n + 1) := by omega
    rw [← e]
    exact this

theorem get2_set2 (a : List (List ℚ)) (r c : Nat) (v : ℚ) (i k : Nat)
    (hr : r < a.length) (hc : c < (a.getD r []).length) :
    get2 (set2 a r c v) i k = if i = r ∧ k = c then v else get2 a i k := by
  unfold get2 set2
  by_cases hi : i = r
  · subst hi
    by_cases hk : k = c
    · subst hk
      have hc' : k < a[i].length := by
        simpa [List.getD_eq_getElem?_getD, List.getElem?_eq_getElem hr] using hc
      simp [List.getD_eq_getElem?_getD, List.getElem?_set, hr, hc']
    · simp [List.getD_eq_getElem?_getD, List.getElem?_set, hr, hk, Ne.symm hk]
  · simp [List.getD_eq_getElem?_getD, List.getElem?_set, hi, Ne.symm hi]

theorem row_length_of_rows (a : List (List ℚ)) (r n : Nat) (hr : r < a.length)
    (h : ∀ row ∈ a, row.length = n) : (a.getD r []).length = n := by
  rw [List.getD_eq_getElem?_getD, List.getElem?_eq_getElem hr]
  exact h _ (List.getElem_mem hr)

/-- The short-term history after the storing loop: the slot at `prevBinsIdx`
holds the frame from the cutoff on, everything else is as before. -/
theorem storeBins_get2 (frame : List ℚ) (u : PV_DecorTransExtract)
    (hidx : u.prevBinsIdx < u.prevBins.length)
    (hrows : ∀ row ∈ u.prevBins, row.length = frame.length)
    (hcut : u.lowFreqCutVal ≤ frame.length) (i k : Nat) :
    get2 (storeBins frame u).prevBins i k =
      if i = u.prevBinsIdx ∧ u.lowFreqCutVal ≤ k ∧ k < frame.length then frame.getD k 0
      else get2 u.prevBins i k := by
  unfold storeBins forLoop
  have key := foldl_range'_inv
    (fun j (t : PV_DecorTransExtract) =>
      t.prevBinsIdx = u.prevBinsIdx ∧ t.prevBins.length = u.prevBins.length ∧
      (∀ row ∈ t.prevBins, row.length = frame.length) ∧
      ∀ i k, get2 t.prevBins i k =
        if i = u.prevBinsIdx ∧ u.lowFreqCutVal ≤ k ∧ k < j then frame.getD k 0
        else get2 u.prevBins i k)
    (fun i u => { u with prevBins := set2 u.prevBins u.prevBinsIdx i (frame.getD i 0) })
    (frame.length - u.lowFreqCutVal) u.lowFreqCutVal u
    ⟨rfl, rfl, hrows, fun i k => by
      have : ¬ (i = u.prevBinsIdx ∧ u.lowFreqCutVal ≤ k ∧ k < u.lowFreqCutVal) := by omega
      rw [if_neg this]⟩
    (fun j t h1 h2 hP => by
      obtain ⟨p1, p2, p3, p4⟩ := hP
      refine ⟨p1, by simp only [set2_length]; exact p2, set2_rows _ _ _ _ _ p3, ?_⟩
      intro i k
      have hr : t.prevBinsIdx < t.prevBins.length := by rw [p1, p2]; exact hidx
      simp only []
      rw [get2_set2 _ _ _ _ _ _ hr
        (by rw [row_length_of_rows _ _ _ hr p3]; omega), p4 i k, p1]
      by_cases hik : i = u.prevBinsIdx ∧ k = j
      · rw [if_pos hik, if_pos (by omega), hik.2]
      · rw [if_neg hik]
        by_cases hc : i = u.prevBinsIdx ∧ u.lowFreqCutVal ≤ k ∧ k < j
        · rw [if_pos hc, if_pos (by omega)]
        · rw [if_neg hc, if_neg (by omega)])
  have e : u.lowFreqCutVal + (frame.length - u.lowFreqCutVal) = frame.length := by omega
  rw [e] at key
  exact key.2.2.2 i k

theorem calcAverageBins_congr (u v : PV_DecorTransExtract) (k : Nat) (h1 : u.iVal = v.iVal)
    (h2 : u.prevBins = v.prevBins) : calcAverageBins u k = calcAverageBins v k := by
  unfold calcAverageBins
  rw [h1, h2]

/-- The average history after the averaging loop: the slot at `littleOmegaIdx`
holds the averages of the bins from the cutoff on, everything else is as
before. -/
theorem averageBins_get2 (n : Nat) (u : PV_DecorTransExtract)
    (hidx : u.littleOmegaIdx < u.littleOmegaBins.length)
    (hrows : ∀ row ∈ u.littleOmegaBins, row.length = n)
    (hcut : u.lowFreqCutVal ≤ n) (i k : Nat) :
    get2 (averageBins n u).littleOmegaBins i k =
      if i = u.littleOmegaIdx ∧ u.lowFreqCutVal ≤ k ∧ k < n then calcAverageBins u k
      else get2 u.littleOmegaBins i k := by
  unfold averageBins forLoop
  have key := foldl_range'_inv
    (fun j (t : PV_DecorTransExtract) =>
      t.littleOmegaIdx = u.littleOmegaIdx ∧ t.iVal = u.iVal ∧ t.prevBins = u.prevBins ∧
      t.littleOmegaBins.length = u.littleOmegaBins.length ∧
      (∀ row ∈ t.littleOmegaBins, row.length = n) ∧
      ∀ i k, get2 t.littleOmegaBins i k =
        if i = u.littleOmegaIdx ∧ u.lowFreqCutVal ≤ k ∧ k < j then calcAverageBins u k
        else get2 u.littleOmegaBins i k)
    (fun j u => { u with
      littleOmegaBins := set2 u.littleOmegaBins u.littleOmegaIdx j (calcAverageBins u j) })
    (n - u.lowFreqCutVal) u.lowFreqCutVal u
    ⟨rfl, rfl, rfl, rfl, hrows, fun i k => by
      have : ¬ (i = u.littleOmegaIdx ∧ u.lowFreqCutVal ≤ k ∧ k < u.lowFreqCutVal) := by omega
      rw [if_neg this]⟩
    (fun j t h1 h2 hP => by
      obtain ⟨p1, q1, q2, p2, p3, p4⟩ := hP
      refine ⟨p1, q1, q2, by simp only [set2_length]; exact p2, set2_rows _ _ _ _ _ p3, ?_⟩
      intro i k
      have hr : t.littleOmegaIdx < t.littleOmegaBins.length := by rw [p1, p2]; exact hidx
      simp only []
      rw [get2_set2 _ _ _ _ _ _ hr
        (by rw [row_length_of_rows _ _ _ hr p3]; omega), p4 i k, p1,
        calcAverageBins_congr t u j q1 q2]
      by_cases hik : i = u.littleOmegaIdx ∧ k = j
      · rw [if_pos hik, if_pos (by omega), hik.2]
      · rw [if_neg hik]
        by_cases hc : i = u.littleOmegaIdx ∧ u.lowFreqCutVal ≤ k ∧ k < j
        · rw [if_pos hc, if_pos (by omega)]
        · rw [if_neg hc, if_neg (by omega)])
  have e : u.lowFreqCutVal + (n - u.lowFreqCutVal) = n := by omega
  rw [e] at key
  exact key.2.2.2.2.2 i k

theorem calcAverageBins_sum (u : PV_DecorTransExtract) (k : Nat) :
    calcAverageBins u k =
      ((List.range u.iVal).map (fun i => get2 u.prevBins i k)).sum / (u.iVal : ℚ) := by
  unfold calcAverageBins forLoop
  simp only [Nat.sub_zero]
  rw [List.sum_eq_foldl, List.foldl_map, List.range_eq_range']

/-- The two histories a processed call leaves are those of the storing and
averaging loops. -/
theorem process_histories (u : PV_DecorTransExtract) (frame : List ℚ)
    (s' : PV_DecorTransExtract) (out : List Mag) (h : process u frame = some (s', out)) :
    s'.prevBins = (storeBins frame u).prevBins ∧
      s'.littleOmegaBins = (averageBins frame.length (storeBins frame u)).littleOmegaBins := by
  obtain ⟨m, hm, hs', -⟩ := process_some u frame s' out h
  obtain ⟨bo, fl, hm1⟩ := markTransients_eq _ _ _ hm
  obtain ⟨rb, hrb⟩ := shapeBins_eq frame.length m.1 (cutLowBins m.1 (frame.map some))
  have hadv := advance_config (shapeBins frame.length m.1 (cutLowBins m.1 (frame.map some))).1
  constructor
  · rw [hs', hadv.2.2.2.2.2.2.2.2.2.2.2.1, hrb, hm1]
    obtain ⟨lo, ha⟩ := averageBins_eq frame.length (storeBins frame u)
    simp only [resetFlags]
    rw [ha]
  · rw [hs', hadv.2.2.2.2.2.2.2.2.2.2.2.2.1, hrb, hm1]
    rfl

/-! ## The histories after a sequence of frames -/

theorem mod_ne_of_lt_add (I j t : Nat) (h1 : j < t) (h2 : t < j + I) : j % I ≠ t % I := by
  intro h
  have h3 : (t - j) % I = 0 := Nat.sub_mod_eq_zero_of_mod_eq h.symm
  rw [Nat.mod_eq_of_lt (by omega)] at h3
  omega

theorem get2_replicate_zero (r n i k : Nat) :
    get2 (List.replicate r (List.replicate n (0 : ℚ))) i k = 0 := by
  unfold get2
  by_cases hi : i < r
  · by_cases hk : k < n
    · simp [List.getD_eq_getElem?_getD, List.getElem?_replicate, hi, hk]
    · simp [List.getD_eq_getElem?_getD, List.getElem?_replicate, hi, hk]
  · simp [List.getD_eq_getElem?_getD, List.getElem?_replicate, hi]

/-- The primed engine of the constructor holds the histories of zero frames. -/
theorem historyInv_zero (retTrans : Bool) (I J : Nat) (alphaVal betaVal : ℚ) (D cut N : Nat)
    (hist : Nat → List ℚ) :
    HistoryInv I J cut N hist 0
      (prime (PV_DecorTransExtract_Ctor retTrans I J alphaVal betaVal D cut) N) := by
  have hsh := prime_shaped (PV_DecorTransExtract_Ctor retTrans I J alphaVal betaVal D cut) N rfl
  have h0 : float32OfBits (16843009 * u8 0) = 0 := by decide!
  have hp : (prime (PV_DecorTransExtract_Ctor retTrans I J alphaVal betaVal D cut) N).prevBins =
      List.replicate I (List.replicate N 0) := by
    simp [prime, PV_DecorTransExtract_Ctor, firstCalc, memsetFloat, h0]
  have hl : (prime (PV_DecorTransExtract_Ctor retTrans I J alphaVal betaVal D cut)
      N).littleOmegaBins = List.replicate J (List.replicate N 0) := by
    simp [prime, PV_DecorTransExtract_Ctor, firstCalc, memsetFloat, h0]
  refine ⟨rfl, rfl, rfl, rfl, hsh.2, hsh.1, by simp [prime, PV_DecorTransExtract_Ctor, firstCalc],
    by simp [prime, PV_DecorTransExtract_Ctor, firstCalc], ?_, ?_, ?_⟩
  · intro i k _
    rw [hp, hl]
    exact ⟨get2_replicate_zero _ _ _ _, get2_replicate_zero _ _ _ _⟩
  · intro k _ _
    refine ⟨fun j hj => by omega, fun i _ _ => ?_⟩
    rw [hp]
    exact get2_replicate_zero _ _ _ _
  · intro k _ _ h
    omega

/-- One more processed frame. -/
theorem historyInv_step (I J cut N : Nat) (hist : Nat → List ℚ) (t : Nat)
    (s s' : PV_DecorTransExtract) (out : List Mag)
    (hI : 1 ≤ I) (hI' : I < 4294967296) (hJ : 1 ≤ J) (hJ' : J < 4294967296)
    (hcut : cut ≤ N) (hlen : (hist t).length = N) (h : HistoryInv I J cut N hist t s)
    (hnext : PV_DecorTransExtract_next s (hist t) = some (s', out)) :
    HistoryInv I J cut N hist (t + 1) s' := by
  obtain ⟨r1, r2, r3, r4, r5, r6, r7, r8, r9, r10, r11⟩ := h
  have hprime : prime s (hist t).length = s := prime_of_ready s _ r1
  have hacc : Accepted s (hist t) := by
    unfold Accepted
    rw [hprime, r5, r4, hlen]
    exact ⟨rfl, hcut⟩
  rw [next_accepted s _ hacc, hprime] at hnext
  obtain ⟨pb, lo, bo, fl, rb, hs'⟩ := process_result _ _ _ _ hnext
  have hadv := fun u => advance_config u
  obtain ⟨hpb, hlb⟩ := process_histories _ _ _ _ hnext
  obtain ⟨pbS, hS⟩ := storeBins_eq (hist t) s
  have hsh : Shaped s' := process_shaped _ _ _ _ hnext r6
  obtain ⟨-, -, -, q4, q5, q6, q7⟩ := r6
  have hX : ∀ i k, get2 s'.prevBins i k =
      if i = t % I ∧ cut ≤ k ∧ k < N then (hist t).getD k 0 else get2 s.prevBins i k := by
    intro i k
    rw [hpb, storeBins_get2 (hist t) s (by rw [q4, r7, r2]; exact Nat.mod_lt _ (by omega))
      (by rw [hlen, ← r5]; exact q5) (by rw [r4, hlen]; exact hcut), r7, r4, hlen]
  have hY : ∀ i k, get2 s'.littleOmegaBins i k =
      if i = t % J ∧ cut ≤ k ∧ k < N then
        ((List.range I).map (fun i => get2 s'.prevBins i k)).sum / (I : ℚ)
      else get2 s.littleOmegaBins i k := by
    intro i k
    have e1 : (storeBins (hist t) s).littleOmegaIdx = s.littleOmegaIdx := by rw [hS]
    have e2 : (storeBins (hist t) s).littleOmegaBins = s.littleOmegaBins := by rw [hS]
    have e3 : (storeBins (hist t) s).lowFreqCutVal = s.lowFreqCutVal := by rw [hS]
    have e4 : (storeBins (hist t) s).iVal = s.iVal := by rw [hS]
    rw [hlb, averageBins_get2 (hist t).length (storeBins (hist t) s)
      (by rw [e1, e2, q6, r8, r3]; exact Nat.mod_lt _ (by omega))
      (by rw [e2, hlen, ← r5]; exact q7) (by rw [e3, r4, hlen]; exact hcut),
      calcAverageBins_sum, e1, e3, e4, r8, r4, r2, hlen, hpb, e2]
  refine ⟨?_, ?_, ?_, ?_, ?_, hsh, ?_, ?_, ?_, ?_, ?_⟩
  · rw [hs', (hadv _).2.2.2.2.2.2.2.2.1]; exact r1
  · rw [hs', (hadv _).1]; exact r2
  · rw [hs', (hadv _).2.1]; exact r3
  · rw [hs', (hadv _).2.2.2.2.2.2.1]; exact r4
  · rw [hs', (hadv _).2.2.2.2.2.2.2.1]; exact r5
  · rw [hs', advance_prevBinsIdx]
    simp only [r2, r7]
    rw [ring_step I (t % I) hI hI' (Nat.mod_lt _ (by omega)), Nat.mod_add_mod]
  · rw [hs', advance_littleOmegaIdx]
    simp only [r3, r8]
    rw [ring_step J (t % J) hJ hJ' (Nat.mod_lt _ (by omega)), Nat.mod_add_mod]
  · intro i k hk
    rw [hX, hY, if_neg (by omega), if_neg (by omega)]
    exact r9 i k hk
  · intro k hk1 hk2
    constructor
    · intro j hj1 hj2
      rw [hX]
      by_cases hjt : j = t
      · subst hjt
        rw [if_pos ⟨rfl, hk1, hk2⟩]
      · have hne := mod_ne_of_lt_add I j t (by omega) (by omega)
        rw [if_neg (fun hc => hne hc.1)]
        exact (r10 k hk1 hk2).1 j (by omega) (by omega)
    · intro i hi1 hi2
      rw [hX]
      have hne : i ≠ t % I := by
        rw [Nat.mod_eq_of_lt (by omega)]
        omega
      rw [if_neg (fun hc => hne hc.1)]
      exact (r10 k hk1 hk2).2 i (by omega) hi2
  · intro k hk1 hk2 _
    rw [hY, Nat.add_sub_cancel, if_pos ⟨rfl, hk1, hk2⟩]

theorem next_prime (s : PV_DecorTransExtract) (frame : List ℚ) :
    PV_DecorTransExtract_next (prime s frame.length) frame =
      PV_DecorTransExtract_next s frame := by
  unfold PV_DecorTransExtract_next
  simp only []
  rw [prime_of_ready (prime s frame.length) frame.length (prime_fields s frame.length).2.2.2]

theorem historyInv_run (I J cut N : Nat) (hist : Nat → List ℚ)
    (hI : 1 ≤ I) (hI' : I < 4294967296) (hJ : 1 ≤ J) (hJ' : J < 4294967296)
    (hcut : cut ≤ N) :
    ∀ (rest : List (List ℚ)) (t : Nat) (s s' : PV_DecorTransExtract),
      HistoryInv I J cut N hist t s →
      (∀ j, j < rest.length → rest.getD j [] = hist (t + j)) →
      (∀ f ∈ rest, f.length = N) → runFrames s rest = some s' →
      HistoryInv I J cut N hist (t + rest.length) s' := by
  intro rest
  induction rest with
  | nil =>
    intro t s s' h _ _ hrun
    simp only [runFrames, Option.some.injEq] at hrun
    subst hrun
    simpa using h
  | cons f rest ih =>
    intro t s s' h hfr hlen hrun
    have hf : f = hist t := by
      have := hfr 0 (by simp)
      simpa using this
    simp only [runFrames] at hrun
    cases hn : PV_DecorTransExtract_next s f with
    | none => rw [hn] at hrun; simp at hrun
    | some r =>
      rw [hn] at hrun
      simp only [Option.some_bind] at hrun
      rw [hf] at hn
      have hstep := historyInv_step I J cut N hist t s r.1 r.2 hI hI' hJ hJ' hcut
        (by rw [← hf]; exact hlen f (List.mem_cons_self _ _)) h hn
      have := ih (t + 1) r.1 s' hstep
        (fun j hj => by
          have := hfr (j + 1) (by simp; omega)
          simp only [List.getD_cons_succ] at this
          rw [this]
          congr 1
          omega)
        (fun g hg => hlen g (List.mem_cons_of_mem _ hg)) hrun
      have e : t + (f :: rest).length = t + 1 + rest.length := by
        simp only [List.length_cons]; omega
      rw [e]
      exact this

/-- Contents of the History Store after calls that complete.  For `1 <= iVal`,
`1 <= jVal` (both
`unsigned int`), cutoff `cut <= N` and every sequence `fs` of `t >= 1` frames
of `N` bins processed from the constructor on, for every bin `k` from the
cutoff on: slot `(t - 1) mod iVal` of the short-term history holds the raw
magnitude of the last frame, slot `j mod iVal` holds frame `j` for each of the
last `min t iVal` frames, the slots beyond `t` still hold 0, and slot
`(t - 1) mod jVal` of the average history holds the sum of the `iVal`
short-term slots divided by `iVal`; for every bin below the cutoff every slot
of both histories holds 0. -/
theorem history_store_of_completed_calls (retTrans : Bool) (I J : Nat) (alphaVal betaVal : ℚ)
    (D cut N : Nat) (fs : List (List ℚ))
    (hI : 1 ≤ I) (hI' : I < 4294967296) (hJ : 1 ≤ J) (hJ' : J < 4294967296)
    (hcut : cut ≤ N) (hne : fs ≠ []) (hlen : ∀ f ∈ fs, f.length = N)
    (s : PV_DecorTransExtract)
    (hrun : runFrames (PV_DecorTransExtract_Ctor retTrans I J alphaVal betaVal D cut) fs =
      some s) :
    ∀ k, k < N →
      (cut ≤ k →
        get2 s.prevBins ((fs.length - 1) % I) k = (fs.getD (fs.length - 1) []).getD k 0 ∧
        (∀ j, j < fs.length → fs.length ≤ j + I →
          get2 s.prevBins (j % I) k = (fs.getD j []).getD k 0) ∧
        (∀ i, fs.length ≤ i → i < I → get2 s.prevBins i k = 0) ∧
        get2 s.littleOmegaBins ((fs.length - 1) % J) k =
          ((List.range I).map (fun i => get2 s.prevBins i k)).sum / (I : ℚ)) ∧
      (k < cut → ∀ i, get2 s.prevBins i k = 0 ∧ get2 s.littleOmegaBins i k = 0) := by
  have hpos : 1 ≤ fs.length := by
    cases fs with
    | nil => exact absurd rfl hne
    | cons f rest => simp
  have hrun' : runFrames
      (prime (PV_DecorTransExtract_Ctor retTrans I J alphaVal betaVal D cut) N) fs = some s := by
    cases fs with
    | nil => exact absurd rfl hne
    | cons f rest =>
      have hf : f.length = N := hlen f (List.mem_cons_self _ _)
      simp only [runFrames] at hrun ⊢
      rw [← hf, next_prime]
      exact hrun
  have hinv := historyInv_run I J cut N (fun j => fs.getD j []) hI hI' hJ hJ' hcut fs 0 _ s
    (historyInv_zero retTrans I J alphaVal betaVal D cut N _)
    (fun j _ => by simp) hlen hrun'
  rw [Nat.zero_add] at hinv
  obtain ⟨-, -, -, -, -, -, -, -, r9, r10, r11⟩ := hinv
  intro k hk
  constructor
  · intro hck
    obtain ⟨ha, hb⟩ := r10 k hck hk
    exact ⟨ha (fs.length - 1) (by omega) (by omega), ha, hb, r11 k hck hk hpos⟩
  · intro hck i
    exact r9 i k hck

/-- Example of the History Store: the warm-up engine and the two frames `[1,1,1,1]`,
`[1,1,1,1]`; for bin 0, slot 1 of the short-term history holds 1 and slot 1
of the average history holds `(1 + 1) / 2`. -/
theorem history_store_of_completed_calls_example :
    runFrames (PV_DecorTransExtract_Ctor false 2 2 1 (1/2) 1 0) [[1, 1, 1, 1], [1, 1, 1, 1]] =
      some afterSecond ∧
    get2 afterSecond.prevBins ((2 - 1) % 2) 0 = 1 ∧
    get2 afterSecond.littleOmegaBins ((2 - 1) % 2) 0 =
      ((List.range 2).map (fun i => get2 afterSecond.prevBins i 0)).sum / ((2 : Nat) : ℚ) :=
  have hrun : runFrames (PV_DecorTransExtract_Ctor false 2 2 1 (1/2) 1 0)
      [[1, 1, 1, 1], [1, 1, 1, 1]] = some afterSecond := by decide!
  have h := (history_store_of_completed_calls false 2 2 1 (1/2) 1 0 4 [[1, 1, 1, 1], [1, 1, 1, 1]]
    (by decide) (by decide) (by decide) (by decide) (by decide) (by decide) (by decide)
    afterSecond hrun 0 (by decide)).1 (by decide)
  ⟨hrun, h.1, h.2.2.2⟩

/-! ## Accepted frames on which the call does not complete -/

/-- C4 at a failing input: the warm-up engine (cutoff 0, run length 1) and the
accepted first frame `[0,2,0,0]`.  Bin 3 is below the threshold, and the
release step would give it `max (betaVal * old) MIN_VAL = 10^-9`; at the
closing bin 2 the run counter is 1 and `diffBins = 0`, the inner marking loop
leaves the array, the call does not complete and the release step is never
reached. -/
theorem C4_release_step_not_reached :
    Accepted warmup [0, 2, 0, 0] ∧ warmup.lowFreqCutVal ≤ 3 ∧
    ¬ aboveThreshold warmup [0, 2, 0, 0] 3 ∧
    Max.max (warmup.betaVal * (prime warmup 4).releaseBins.getD 3 0) MIN_VAL =
      1 / 1000000000 ∧
    u32 (((2 : Int) - 1) - ((1 : Nat) : Int)) = 0 ∧
    PV_DecorTransExtract_next warmup [0, 2, 0, 0] = none := by
  refine ⟨?_, ?_, ?_, ?_, ?_, ?_⟩ <;> decide!

/-- C11 at a failing input: the warm-up engine after its first frame
`[1,1,1,1]`, a reachable engine with both indices at 1 and both depths 2, and
the accepted frame `[0,2,0,1]`.  The baseline of every bin is `1/2`, bin 1 is
a run closed at bin 2 with `diffBins = 0`, and the call does not complete:
neither index gets to `(1 + 1) mod 2`. -/
theorem C11_indices_not_advanced :
    Reachable afterWarmup ∧ Accepted afterWarmup [0, 2, 0, 1] ∧
    (afterWarmup.iVal, afterWarmup.jVal, afterWarmup.prevBinsIdx,
      afterWarmup.littleOmegaIdx) = (2, 2, 1, 1) ∧
    PV_DecorTransExtract_next afterWarmup [0, 2, 0, 1] = none :=
  ⟨ReachableBy.call warmup afterWarmup [1, 1, 1, 1] (List.replicate 4 (some (1 / 1000000000)))
      (ReachableBy.ctor false 2 2 1 (1/2) 1 0) trivial (by decide!),
    by decide!, by decide, by decide!⟩

/-- C12 at a failing input: the warm-up engine (two slots each, cutoff 0) and
the two accepted frames `[1,1,1,1]`, `[0,1,0,0]` of four bins.  The first call
completes; the second stores its frame in slot 1 and averages it, then its
marking loop closes the run of bin 1 at bin 2 with `diffBins = 0` and leaves
the array: the call does not complete, and no engine is left after frame 2. -/
theorem C12_second_frame_not_processed :
    PV_DecorTransExtract_next warmup [1, 1, 1, 1] =
      some (afterWarmup, List.replicate 4 (some (1 / 1000000000))) ∧
    Accepted afterWarmup [0, 1, 0, 0] ∧
    (entering afterWarmup [0, 1, 0, 0]).prevBins = [[1, 1, 1, 1], [0, 1, 0, 0]] ∧
    (entering afterWarmup [0, 1, 0, 0]).littleOmegaBins =
      [[1 / 2, 1 / 2, 1 / 2, 1 / 2], [1 / 2, 1, 1 / 2, 1 / 2]] ∧
    PV_DecorTransExtract_next afterWarmup [0, 1, 0, 0] = none ∧
    runFrames warmup [[1, 1, 1, 1], [0, 1, 0, 0]] = none := by
  refine ⟨?_, ?_, ?_, ?_, ?_, ?_⟩ <;> decide!

/-- C19 at a failing input: the warm-up engine (cutoff 0, run length 1) and the
accepted first frame `[0,5,0]`.  Bin 1 has magnitude 5, not 0; its run is
closed at bin 2 with `diffBins = 0`, and in extract mode as in residual mode
the call does not complete: bin 1 gets no output magnitude. -/
theorem C19_no_output_in_either_mode :
    Accepted warmup [0, 5, 0] ∧ warmup.lowFreqCutVal ≤ 1 ∧
    ([0, 5, 0] : List ℚ).getD 1 0 ≠ 0 ∧
    PV_DecorTransExtract_next (withMode true warmup) [0, 5, 0] = none ∧
    PV_DecorTransExtract_next (withMode false warmup) [0, 5, 0] = none := by
  refine ⟨?_, ?_, ?_, ?_, ?_⟩ <;> decide!

end PVDecor
